import Mathlib

/-!
Verification development for the logmentor log structuring and chunking core
(src/utils.py): a shallow embedding of `structure_logs` and
`chunk_structured_logs`, together with theorems settling the specified
properties.

Modelling conventions:
* Python strings are Lean `String`s; character classes (`str.strip`
  whitespace, `re` classes `\s`, `\d`, `\w`) are modelled over their ASCII
  member sets (the concrete log inputs of the specification are ASCII).
* Python values decoded by `json.loads` are modelled by `PyVal`; exceptions
  are modelled by `Except PyErr`.
* `str.splitlines` is modelled with its full set of line separator
  characters, including `\r\n` as a single separator.
-/

namespace LogMentor

/-- ASCII whitespace as stripped by Python `str.strip()` (and matched by the
regex class `\s`): space, tab, newline, carriage return, vertical tab,
form feed. -/
def isPyWs (c : Char) : Bool :=
  c = ' ' || c = '\t' || c = '\n' || c = '\r' || c = '\x0b' || c = '\x0c'

/-- Python `str.strip()`: remove leading and trailing whitespace. -/
def pyStrip (s : String) : String :=
  String.mk (((s.data.dropWhile isPyWs).reverse.dropWhile isPyWs).reverse)

/-- Line separator characters recognized by Python `str.splitlines()`. -/
def isLineSepChar (c : Char) : Bool :=
  c = '\n' || c = '\r' || c = '\x0b' || c = '\x0c' ||
  c = '\x1c' || c = '\x1d' || c = '\x1e' || c = '\x85' ||
  c = '\u2028' || c = '\u2029'

theorem dropWhileLenLe {α : Type} (p : α → Bool) :
    ∀ l : List α, (l.dropWhile p).length ≤ l.length := by
  intro l
  induction l with
  | nil => simp
  | cons a t ih =>
    by_cases hp : p a
    · simp [List.dropWhile, hp]
      omega
    · simp [List.dropWhile, hp]

/-- Worker for `pySplitlines`, over the character list.  `fuel` only bounds
the recursion depth (each step consumes at least one character, so any
`fuel > cs.length` computes the splitting). -/
def splitlinesGo : Nat → List Char → List String
  | 0, _ => []
  | fuel + 1, cs =>
    if cs = [] then []
    else
      match cs.dropWhile (fun c => !(isLineSepChar c)) with
      | [] => [String.mk (cs.takeWhile (fun c => !(isLineSepChar c)))]
      | '\r' :: '\n' :: rest2 =>
        String.mk (cs.takeWhile (fun c => !(isLineSepChar c))) :: splitlinesGo fuel rest2
      | _ :: rest1 =>
        String.mk (cs.takeWhile (fun c => !(isLineSepChar c))) :: splitlinesGo fuel rest1

/-- Python `str.splitlines()`: split on line separators; a trailing
separator does not produce a final empty line; the empty string gives `[]`. -/
def pySplitlines (s : String) : List String :=
  splitlinesGo (s.data.length + 1) s.data

/-! ## Python values and errors -/

/-- Python values that `json.loads` can decode.  Floating point numbers keep
their source lexeme (their numeric normalization plays no role in any
property below). -/
inductive PyVal where
  | pynone
  | pybool (b : Bool)
  | pyint (n : Int)
  | pyfloat (lit : String)
  | pystr (s : String)
  | pylist (xs : List PyVal)
  | pydict (entries : List (String × PyVal))

/-- Python exceptions that the embedded code can raise. -/
inductive PyErr where
  | typeError
  | valueError
  | keyError
deriving DecidableEq

/-! ## JSON decoding (model of `json.loads`) -/

/-- JSON inter-token whitespace. -/
def isJsonWs (c : Char) : Bool := c = ' ' || c = '\t' || c = '\n' || c = '\r'

def isDigitChar (c : Char) : Bool := '0' ≤ c && c ≤ '9'

def hexVal (c : Char) : Option Nat :=
  if '0' ≤ c ∧ c ≤ '9' then some (c.toNat - '0'.toNat)
  else if 'a' ≤ c ∧ c ≤ 'f' then some (c.toNat - 'a'.toNat + 10)
  else if 'A' ≤ c ∧ c ≤ 'F' then some (c.toNat - 'A'.toNat + 10)
  else none

def parseHex4 : List Char → Option (Nat × List Char)
  | a :: b :: c :: d :: rest =>
    match hexVal a, hexVal b, hexVal c, hexVal d with
    | some x, some y, some z, some w => some (((x * 16 + y) * 16 + z) * 16 + w, rest)
    | _, _, _, _ => none
  | _ => none

theorem parseHex4Len : ∀ {cs : List Char} {p : Nat × List Char},
    parseHex4 cs = some p → p.2.length + 4 = cs.length := by
  intro cs p h
  match cs with
  | [] => simp [parseHex4] at h
  | [a] => simp [parseHex4] at h
  | [a, b] => simp [parseHex4] at h
  | [a, b, c] => simp [parseHex4] at h
  | a :: b :: c :: d :: rest =>
    cases h1 : hexVal a <;> cases h2 : hexVal b <;> cases h3 : hexVal c <;>
      cases h4 : hexVal d <;> simp [parseHex4, h1, h2, h3, h4] at h <;>
      simp [← h]

/-- Decode a JSON string body (after the opening quote), strict mode:
raw control characters are rejected.  `\uXXXX` escapes are decoded code
unit by code unit (surrogate-pair combination is not modelled; no property
below depends on it).  `fuel` only bounds the recursion depth (each step
consumes at least one character). -/
def parseJStrChars : Nat → List Char → Option (List Char × List Char)
  | 0, _ => none
  | fuel + 1, cs =>
    match cs with
    | [] => none
    | c :: cs1 =>
      if c = '"' then some ([], cs1)
      else if c = '\\' then
        match cs1 with
        | [] => none
        | e :: cs2 =>
          if e = '"' then (parseJStrChars fuel cs2).map (fun p => ('"' :: p.1, p.2))
          else if e = '\\' then (parseJStrChars fuel cs2).map (fun p => ('\\' :: p.1, p.2))
          else if e = '/' then (parseJStrChars fuel cs2).map (fun p => ('/' :: p.1, p.2))
          else if e = 'b' then (parseJStrChars fuel cs2).map (fun p => ('\x08' :: p.1, p.2))
          else if e = 'f' then (parseJStrChars fuel cs2).map (fun p => ('\x0c' :: p.1, p.2))
          else if e = 'n' then (parseJStrChars fuel cs2).map (fun p => ('\n' :: p.1, p.2))
          else if e = 'r' then (parseJStrChars fuel cs2).map (fun p => ('\r' :: p.1, p.2))
          else if e = 't' then (parseJStrChars fuel cs2).map (fun p => ('\t' :: p.1, p.2))
          else if e = 'u' then
            match parseHex4 cs2 with
            | some (n, cs3) => (parseJStrChars fuel cs3).map (fun p => (Char.ofNat n :: p.1, p.2))
            | none => none
          else none
      else if c.toNat < 0x20 then none
      else (parseJStrChars fuel cs1).map (fun p => (c :: p.1, p.2))

/-- Digits to a natural number value. -/
def digitsToNat (ds : List Char) : Nat :=
  ds.foldl (fun acc c => acc * 10 + (c.toNat - '0'.toNat)) 0

/-- Optional exponent of a JSON number; `some` exactly when a well-formed
exponent (`[eE][+-]?[0-9]+`) is present. -/
def parseJExp (cs : List Char) : Option (List Char × List Char) :=
  match cs with
  | e :: rest =>
    if e = 'e' ∨ e = 'E' then
      match rest with
      | s :: d :: rest2 =>
        if (s = '+' ∨ s = '-') ∧ isDigitChar d then
          some (e :: s :: (d :: rest2).takeWhile isDigitChar,
            (d :: rest2).dropWhile isDigitChar)
        else if isDigitChar s then
          some (e :: (s :: d :: rest2).takeWhile isDigitChar,
            (s :: d :: rest2).dropWhile isDigitChar)
        else none
      | [s] => if isDigitChar s then some ([e, s], []) else none
      | [] => none
    else none
  | [] => none

/-- Finish a JSON number after the mantissa: try the exponent; the token is
a float when a fraction or exponent is present, an int otherwise. -/
def parseJExpPart (negChars mantissa : List Char) (isFloat : Bool)
    (cs : List Char) : Option (PyVal × List Char) :=
  match parseJExp cs with
  | some (expChars, cs3) =>
    some (.pyfloat (String.mk (negChars ++ mantissa ++ expChars)), cs3)
  | none =>
    if isFloat then some (.pyfloat (String.mk (negChars ++ mantissa)), cs)
    else
      some (.pyint (if negChars = [] then Int.ofNat (digitsToNat mantissa)
        else -Int.ofNat (digitsToNat mantissa)), cs)

/-- Optional fraction (`\.[0-9]+`) after the integer part. -/
def parseJFrac (negChars intPart : List Char) (cs : List Char) :
    Option (PyVal × List Char) :=
  match cs with
  | '.' :: d :: rest =>
    if isDigitChar d then
      parseJExpPart negChars
        (intPart ++ '.' :: (d :: rest).takeWhile isDigitChar) true
        ((d :: rest).dropWhile isDigitChar)
    else parseJExpPart negChars intPart false cs
  | _ => parseJExpPart negChars intPart false cs

/-- Integer part of a JSON number: `0` alone, or a nonzero maximal digit
run (a leading zero cannot be followed by more digits). -/
def parseJNumInt (negChars : List Char) (cs1 : List Char) :
    Option (PyVal × List Char) :=
  match cs1 with
  | [] => none
  | c :: rest =>
    if c = '0' then parseJFrac negChars [c] rest
    else if isDigitChar c then
      parseJFrac negChars ((c :: rest).takeWhile isDigitChar)
        ((c :: rest).dropWhile isDigitChar)
    else none

/-- Decode a JSON number starting at `cs` (first char is `-` or a digit).
Returns the value and the remaining input.  Grammar: `-? (0 | [1-9][0-9]*)
(\.[0-9]+)? ([eE][+-]?[0-9]+)?`. -/
def parseJNum (cs : List Char) : Option (PyVal × List Char) :=
  match cs with
  | '-' :: rest => parseJNumInt [('-' : Char)] rest
  | _ => parseJNumInt [] cs

/-- `listStartsWith pat cs` holds when `pat` is an initial segment of `cs`. -/
def listStartsWith : List Char → List Char → Bool
  | [], _ => true
  | _ :: _, [] => false
  | a :: as, b :: bs => a = b && listStartsWith as bs

/-- What `parseJ` is currently decoding: one value, the elements of an
array (after `[`), or the members of an object (after `{`); `first` is true
before the first element/member. -/
inductive JMode where
  | value
  | elems (first : Bool)
  | members (first : Bool)

/-- Decode one JSON value / array tail / object tail.  `fuel` bounds the
recursion (Python instead raises `RecursionError` past its recursion limit;
that corner is not modelled — every recursive call consumes input, so a
fuel of twice the input length suffices). -/
def parseJ : Nat → JMode → List Char → Option (PyVal × List Char)
  | 0, _, _ => none
  | fuel + 1, .value, cs =>
    match cs.dropWhile isJsonWs with
    | [] => none
    | c :: rest =>
      if c = '"' then
        (parseJStrChars (rest.length + 1) rest).map (fun p => (.pystr (String.mk p.1), p.2))
      else if c = '{' then parseJ fuel (.members true) rest
      else if c = '[' then parseJ fuel (.elems true) rest
      else if c = 'n' then
        if listStartsWith ['u', 'l', 'l'] rest then some (.pynone, rest.drop 3) else none
      else if c = 't' then
        if listStartsWith ['r', 'u', 'e'] rest then some (.pybool true, rest.drop 3) else none
      else if c = 'f' then
        if listStartsWith ['a', 'l', 's', 'e'] rest then some (.pybool false, rest.drop 4) else none
      else if c = 'N' then
        if listStartsWith ['a', 'N'] rest then some (.pyfloat "nan", rest.drop 2) else none
      else if c = 'I' then
        if listStartsWith ['n', 'f', 'i', 'n', 'i', 't', 'y'] rest then
          some (.pyfloat "inf", rest.drop 7) else none
      else if c = '-' ∧ listStartsWith ['I', 'n', 'f', 'i', 'n', 'i', 't', 'y'] rest then
        some (.pyfloat "-inf", rest.drop 8)
      else if c = '-' ∨ isDigitChar c then parseJNum (c :: rest)
      else none
  | fuel + 1, .elems first, cs =>
    match cs.dropWhile isJsonWs with
    | [] => none
    | c :: rest =>
      if c = ']' ∧ first then some (.pylist [], rest)
      else
        match parseJ fuel .value (c :: rest) with
        | none => none
        | some (v, cs2) =>
          match cs2.dropWhile isJsonWs with
          | ']' :: cs4 => some (.pylist [v], cs4)
          | ',' :: cs4 =>
            match parseJ fuel (.elems false) cs4 with
            | some (.pylist vs, cs5) => some (.pylist (v :: vs), cs5)
            | _ => none
          | _ => none
  | fuel + 1, .members first, cs =>
    match cs.dropWhile isJsonWs with
    | [] => none
    | c :: rest =>
      if c = '}' ∧ first then some (.pydict [], rest)
      else if c = '"' then
        match parseJStrChars (rest.length + 1) rest with
        | none => none
        | some (key, cs2) =>
          match cs2.dropWhile isJsonWs with
          | ':' :: cs3 =>
            match parseJ fuel .value cs3 with
            | none => none
            | some (v, cs4) =>
              match cs4.dropWhile isJsonWs with
              | '}' :: cs5 => some (.pydict [(String.mk key, v)], cs5)
              | ',' :: cs5 =>
                match parseJ fuel (.members false) cs5 with
                | some (.pydict ms, cs6) =>
                  some (.pydict ((String.mk key, v) :: ms), cs6)
                | _ => none
              | _ => none
          | _ => none
      else none

/-- Model of Python `json.loads`: decode one JSON value, allow trailing
whitespace, reject trailing data ("Extra data"); `none` models
`json.JSONDecodeError`. -/
def json_loads (s : String) : Option PyVal :=
  match parseJ (2 * s.data.length + 4) .value s.data with
  | some (v, rest) => if rest.dropWhile isJsonWs = [] then some v else none
  | none => none

/-! ## The structured-text header pattern

Model of `re.match` with
`^(\d{4}-\d{2}-\d{2} \d{2}:\d{2}:\d{2})(?:,\d+)?\s+\[?(\w+)\]?\s+(.*)`.
On this pattern a backtracking regex engine is equivalent to the greedy
deterministic matcher below: each optional or repeated piece is followed by
a piece that cannot match the characters the former would have to give
back, so the greedy choice is the only possible one.  (`.` not matching a
newline is irrelevant for lines produced by `splitlines`, which contain no
newline; for such lines `(.*)` takes the whole remainder.) -/

/-- Regex class `\w` (ASCII): letters, digits, underscore. -/
def isWordChar (c : Char) : Bool := c.isAlpha || isDigitChar c || c = '_'

/-- Exactly `n` characters of class `\d`. -/
def takeDigitsN : Nat → List Char → Option (List Char × List Char)
  | 0, cs => some ([], cs)
  | _ + 1, [] => none
  | n + 1, c :: cs =>
    if isDigitChar c then (takeDigitsN n cs).map (fun p => (c :: p.1, p.2))
    else none

/-- One literal character. -/
def expectChar (ch : Char) : List Char → Option (List Char)
  | [] => none
  | c :: cs => if c = ch then some cs else none

/-- Group 1 of the pattern: `\d{4}-\d{2}-\d{2} \d{2}:\d{2}:\d{2}`.
Returns the matched characters and the rest. -/
def matchTs (cs : List Char) : Option (List Char × List Char) := do
  let (d1, r1) ← takeDigitsN 4 cs
  let r2 ← expectChar '-' r1
  let (d2, r3) ← takeDigitsN 2 r2
  let r4 ← expectChar '-' r3
  let (d3, r5) ← takeDigitsN 2 r4
  let r6 ← expectChar ' ' r5
  let (d4, r7) ← takeDigitsN 2 r6
  let r8 ← expectChar ':' r7
  let (d5, r9) ← takeDigitsN 2 r8
  let r10 ← expectChar ':' r9
  let (d6, r11) ← takeDigitsN 2 r10
  pure (d1 ++ '-' :: d2 ++ '-' :: d3 ++ ' ' :: d4 ++ ':' :: d5 ++ ':' :: d6, r11)

/-- The optional sub-second group `(?:,\d+)?`: consumed (comma plus maximal
digits) exactly when a comma directly followed by a digit is present. -/
def matchCommaDigits (cs : List Char) : List Char :=
  match cs with
  | ',' :: d :: rest =>
    if isDigitChar d then (d :: rest).dropWhile isDigitChar else cs
  | _ => cs

/-- The three capture groups of the header pattern. -/
structure TextMatch where
  g1 : String
  g2 : String
  g3 : String
deriving DecidableEq

/-- The optional opening bracket `\[?`: consumed exactly when present (the
following `\w+` cannot match `[`, so a backtracking engine has no other
choice). -/
def afterBracketOpen (cs : List Char) : List Char :=
  match cs with
  | '[' :: rest => rest
  | _ => cs

/-- The optional closing bracket `\]?`: consumed exactly when present (the
following `\s+` cannot match `]`). -/
def afterBracketClose (cs : List Char) : List Char :=
  match cs with
  | ']' :: rest => rest
  | _ => cs

/-- Model of `text_log_pattern.match(line)` from src/utils.py lines 8-10:
`none` models a failed match, `some` carries the three capture groups.
After the fixed-shape timestamp come, in order: the optional sub-second
group, `\s+`, `\[?`, the level `\w+` (group 2), `\]?`, `\s+`, and group 3
is the whole remainder (`(.*)` is greedy and the line, coming from
`splitlines`, holds no newline). -/
def text_log_match (line : String) : Option TextMatch :=
  match matchTs line.data with
  | none => none
  | some (ts, r1) =>
    let r2 := matchCommaDigits r1
    if r2.takeWhile isPyWs = [] then none
    else
      let r4 := afterBracketOpen (r2.dropWhile isPyWs)
      if r4.takeWhile isWordChar = [] then none
      else
        let r6 := afterBracketClose (r4.dropWhile isWordChar)
        if r6.takeWhile isPyWs = [] then none
        else some ⟨String.mk ts, String.mk (r4.takeWhile isWordChar),
                   String.mk (r6.dropWhile isPyWs)⟩

/-! ## The record parser (model of `structure_logs`) -/

/-- One parsed record, as built by `structure_logs`: a Python dict with the
keys `timestamp`, `level`, `message`.  The values come either from capture
groups (strings) or verbatim from a decoded JSON object (any `PyVal`). -/
structure PyRecord where
  timestamp : PyVal
  level : PyVal
  message : PyVal

/-- The loop state of `structure_logs`: the output list built so far and the
currently accumulating record (`current_log`). -/
structure ParseState where
  structured : List PyRecord
  current : Option PyRecord

/-- Substring occurrence test (Python `in` on two strings). -/
def strContainsSub : List Char → List Char → Bool
  | hay, pat =>
    if listStartsWith pat hay then true
    else
      match hay with
      | [] => false
      | _ :: t => strContainsSub t pat

/-- Python `k in parsed` for a decoded JSON value: key lookup on dicts,
element equality on lists, substring test on strings; a `TypeError` on the
remaining (non-iterable) values. -/
def pyContains (v : PyVal) (k : String) : Except PyErr Bool :=
  match v with
  | .pydict es => .ok (es.any (fun e => e.1 = k))
  | .pylist xs => .ok (xs.any (fun x => match x with
      | .pystr s => s = k
      | _ => false))
  | .pystr s => .ok (strContainsSub s.data k.data)
  | _ => .error .typeError

/-- The short-circuiting test
`all(k in parsed for k in ("timestamp", "level", "message"))`. -/
def allThreeKeys (v : PyVal) : Except PyErr Bool := do
  if ← pyContains v "timestamp" then
    if ← pyContains v "level" then
      pyContains v "message"
    else pure false
  else pure false

/-- Python `parsed[k]`: on a dict the value of the last binding of `k`
(later duplicate JSON keys win), a `KeyError` if absent; a `TypeError` on
any non-dict (string/list indices must be integers, scalars are not
subscriptable). -/
def pySubscript (v : PyVal) (k : String) : Except PyErr PyVal :=
  match v with
  | .pydict es =>
    match (es.filter (fun e => e.1 = k)).getLast? with
    | some e => .ok e.2
    | none => .error .keyError
  | _ => .error .typeError

/-- Python `list += s` for a string `s`: the list is extended in place with
the characters of `s`, each becoming a one-character string element
(`list.__iadd__` accepts any iterable, and iterating a `str` yields its
characters). -/
def pyListExtendStr (xs : List PyVal) (s : String) : List PyVal :=
  xs ++ s.data.map (fun ch => .pystr (String.mk [ch]))

/-- One iteration of the `for line in raw_text.splitlines()` loop of
`structure_logs` (src/utils.py lines 14-55). -/
def processLine (st : ParseState) (rawLine : String) : Except PyErr ParseState :=
  let line := pyStrip rawLine
  -- skip empty lines
  if line = "" then .ok st
  else do
    -- try JSON log
    let jsonRec : Option PyRecord ←
      match json_loads line with
      | none => pure none          -- json.JSONDecodeError: not a JSON line
      | some parsed => do
        if ← allThreeKeys parsed then
          let t ← pySubscript parsed "timestamp"
          let l ← pySubscript parsed "level"
          let m ← pySubscript parsed "message"
          pure (some ⟨t, l, m⟩)
        else pure none
    match jsonRec with
    | some newRec =>
      pure { structured := st.structured ++ st.current.toList, current := some newRec }
    | none =>
      -- try text log
      match text_log_match line with
      | some m =>
        pure { structured := st.structured ++ st.current.toList,
               current := some ⟨.pystr m.g1, .pystr m.g2, .pystr m.g3⟩ }
      | none =>
        -- unstructured line: append to current log or create UNKNOWN
        match st.current with
        | some c =>
          match c.message with
          | .pystr s =>
            pure { st with current := some { c with message := .pystr (s ++ "\n" ++ line) } }
          | .pylist xs =>
            -- list += str extends the list with the characters of the string
            pure { st with current := some { c with
              message := .pylist (pyListExtendStr xs ("\n" ++ line)) } }
          | _ => throw .typeError   -- int/float/bool/None/dict += str raises
        | none =>
          pure { st with current := some ⟨.pystr "", .pystr "UNKNOWN", .pystr line⟩ }

/-- Model of `structure_logs` (src/utils.py lines 4-60). -/
def structure_logs (raw_text : String) : Except PyErr (List PyRecord) := do
  let st ← (pySplitlines raw_text).foldlM processLine ⟨[], none⟩
  pure (st.structured ++ st.current.toList)

/-! ## The chunk batcher (model of `chunk_structured_logs`)

The batcher consumes the record sequence produced by the parser; per the
data model of the specification a record carries three string fields
(`timestamp`, `level`, `message`). -/

/-- A log record as consumed by the batcher. -/
structure LogRecord where
  timestamp : String
  level : String
  message : String
deriving DecidableEq

/-- The serialization `f"..."` of one record inside a chunk:
`timestamp`, space, `[`, `level`, `]`, space, `message`. -/
def formatRecord (log : LogRecord) : String :=
  log.timestamp ++ " [" ++ log.level ++ "] " ++ log.message

/-- `"\n".join(...)` of the formatted records of one chunk. -/
def chunkText (chunk : List LogRecord) : String :=
  String.intercalate "\n" (chunk.map formatRecord)

/-- The groups `logs[i:i+chunk_size]` for `i in range(0, len(logs),
chunk_size)` with a positive step: repeatedly take `size` records.  (The
`size = 0` guard only serves termination; `chunk_structured_logs` never
calls it with `0`.) -/
def chunkSlicesGo (size : Nat) : Nat → List LogRecord → List (List LogRecord)
  | 0, _ => []
  | fuel + 1, logs =>
    if logs = [] ∨ size = 0 then []
    else logs.take size :: chunkSlicesGo size fuel (logs.drop size)

def chunkSlices (size : Nat) (logs : List LogRecord) : List (List LogRecord) :=
  chunkSlicesGo size (logs.length + 1) logs

/-- Model of `chunk_structured_logs` (src/utils.py lines 63-71).
`range(0, len(logs), chunk_size)` raises `ValueError` for a zero step and
is empty for a negative step; for a positive step the loop slices off
`chunk_size` records at a time and serializes each slice. -/
def chunk_structured_logs (logs : List LogRecord) (chunk_size : Int) :
    Except PyErr (List String) :=
  if chunk_size = 0 then .error .valueError   -- range() arg 3 must not be zero
  else if chunk_size < 0 then .ok []          -- range(0, n, negative) is empty
  else .ok ((chunkSlices chunk_size.toNat logs).map chunkText)

/-! ## Instrumented parser

`structure_logs_tagged` is `structure_logs` with each record tagged by the
index of the input line that created it (its first line) and by whether it
was created by the JSON branch.  Erasing the tags recovers `structure_logs`
exactly (proved below); the tags let ordering and provenance properties be
stated. -/

/-- A parsed record together with its provenance: the index of the line
that created it and whether that line was a JSON record line. -/
structure TRecord where
  record : PyRecord
  fromJson : Bool
  firstLine : Nat

/-- Loop state of the instrumented parser. -/
structure TState where
  structured : List TRecord
  current : Option TRecord

/-- Pair each list element with its index, starting at `k`. -/
def enumLines (k : Nat) : List String → List (Nat × String)
  | [] => []
  | l :: ls => (k, l) :: enumLines (k + 1) ls

/-- One loop iteration of the instrumented parser: identical to
`processLine` except for the tag bookkeeping. -/
def processLineT (st : TState) (p : Nat × String) : Except PyErr TState :=
  let line := pyStrip p.2
  if line = "" then .ok st
  else do
    let jsonRec : Option PyRecord ←
      match json_loads line with
      | none => pure none
      | some parsed => do
        if ← allThreeKeys parsed then
          let t ← pySubscript parsed "timestamp"
          let l ← pySubscript parsed "level"
          let m ← pySubscript parsed "message"
          pure (some ⟨t, l, m⟩)
        else pure none
    match jsonRec with
    | some newRec =>
      pure { structured := st.structured ++ st.current.toList,
             current := some ⟨newRec, true, p.1⟩ }
    | none =>
      match text_log_match line with
      | some m =>
        pure { structured := st.structured ++ st.current.toList,
               current := some ⟨⟨.pystr m.g1, .pystr m.g2, .pystr m.g3⟩, false, p.1⟩ }
      | none =>
        match st.current with
        | some c =>
          match c.record.message with
          | .pystr s =>
            pure { st with current := some { c with
              record := { c.record with message := .pystr (s ++ "\n" ++ line) } } }
          | .pylist xs =>
            pure { st with current := some { c with
              record := { c.record with
                message := .pylist (pyListExtendStr xs ("\n" ++ line)) } } }
          | _ => throw .typeError
        | none =>
          pure { st with
            current := some ⟨⟨.pystr "", .pystr "UNKNOWN", .pystr line⟩, false, p.1⟩ }

/-- The instrumented parser. -/
def structure_logs_tagged (raw_text : String) : Except PyErr (List TRecord) := do
  let st ← (enumLines 0 (pySplitlines raw_text)).foldlM processLineT ⟨[], none⟩
  pure (st.structured ++ st.current.toList)

/-- Drop the provenance tag. -/
def eraseT (t : TRecord) : PyRecord := t.record

/-- Drop the provenance tags of a whole state. -/
def eraseSt (st : TState) : ParseState :=
  ⟨st.structured.map eraseT, st.current.map eraseT⟩

/-- First-line tags of all records held by a state, output records first,
then the open accumulator. -/
def tagsOf (st : TState) : List Nat :=
  (st.structured ++ st.current.toList).map (·.firstLine)

/-- Every record held by the state that did not come from the JSON branch
carries a non-empty string message. -/
def MsgInv (st : TState) : Prop :=
  ∀ tr ∈ st.structured ++ st.current.toList,
    tr.fromJson = false → ∃ s, tr.record.message = .pystr s ∧ s ≠ ""

/-! ## Predicates for the serialization round-trip -/

/-- The record as the parser would represent it (all three fields strings). -/
def toPyRecord (r : LogRecord) : PyRecord :=
  ⟨.pystr r.timestamp, .pystr r.level, .pystr r.message⟩

/-- The line neither decodes as JSON nor decodes as a JSON value carrying
the three record keys, so the parser falls through to the text pattern. -/
def jsonFallsThrough (line : String) : Prop :=
  match json_loads line with
  | none => True
  | some v => allThreeKeys v = .ok false

/-- A physical line that survives the parser's stripping and line splitting
verbatim: non-empty, strip-invariant, and free of line separators. -/
def goodLine (l : String) : Prop :=
  l ≠ "" ∧ pyStrip l = l ∧ ∀ c ∈ l.data, isLineSepChar c = false

/-- A continuation line that the parser will append verbatim: a good line
recognized by neither the JSON nor the header recognizer. -/
def contLineOk (l : String) : Prop :=
  goodLine l ∧ jsonFallsThrough l ∧ text_log_match l = none

/-- The timestamp has exactly the shape `\d{4}-\d{2}-\d{2} \d{2}:\d{2}:\d{2}`
(in particular no sub-second suffix, which the parser would not retain). -/
def tsShape (s : String) : Prop := matchTs s.data = some (s.data, [])

/-- Records whose serialization `"ts [level] msg"` re-parses via the
structured-header path: exact timestamp shape, non-empty level of word
characters, and a message whose lines (`ls`) are good lines, the tail ones
matching neither recognizer. -/
def GoodRecord (r : LogRecord) : Prop :=
  tsShape r.timestamp ∧
  r.level ≠ "" ∧ (∀ c ∈ r.level.data, isWordChar c = true) ∧
  ∃ ls : List String, ls ≠ [] ∧ r.message = String.intercalate "\n" ls ∧
    (∀ l ∈ ls, goodLine l) ∧ (∀ l ∈ ls.tail, contLineOk l)

/-! ## Facts about the chunk slicing -/

theorem chunkSlicesGo_flatten (size : Nat) (hs : 0 < size) :
    ∀ fuel logs, logs.length < fuel → (chunkSlicesGo size fuel logs).flatten = logs := by
  intro fuel
  induction fuel with
  | zero => intro logs h; omega
  | succ n ih =>
    intro logs h
    by_cases hl : logs = []
    · simp [chunkSlicesGo, hl]
    · have hcond : ¬(logs = [] ∨ size = 0) := by
        simp [hl]
        omega
      rw [chunkSlicesGo, if_neg hcond, List.flatten_cons]
      have hlen : (logs.drop size).length < n := by
        have h1 : (logs.drop size).length = logs.length - size := List.length_drop _ _
        have h2 : logs.length ≠ 0 := fun hz => hl (List.length_eq_zero.mp hz)
        omega
      rw [ih _ hlen, List.take_append_drop]

theorem chunkSlicesGo_length (size : Nat) (hs : 0 < size) :
    ∀ fuel logs, logs.length < fuel →
      (chunkSlicesGo size fuel logs).length = (logs.length + size - 1) / size := by
  intro fuel
  induction fuel with
  | zero => intro logs h; omega
  | succ n ih =>
    intro logs h
    by_cases hl : logs = []
    · rw [hl]
      simp [chunkSlicesGo]
      exact (Nat.div_eq_of_lt (by omega)).symm
    · have hcond : ¬(logs = [] ∨ size = 0) := by
        simp [hl]
        omega
      have h2 : logs.length ≠ 0 := fun hz => hl (List.length_eq_zero.mp hz)
      have hdl : (logs.drop size).length = logs.length - size := List.length_drop _ _
      rw [chunkSlicesGo, if_neg hcond, List.length_cons, ih _ (by omega)]
      by_cases hle : logs.length ≤ size
      · have hz : logs.length - size = 0 := by omega
        rw [hdl, hz]
        rw [Nat.div_eq_of_lt (by omega)]
        exact (Nat.div_eq_of_lt_le (by omega) (by omega)).symm
      · have harg : logs.length - size + size - 1 = logs.length - 1 := by omega
        have harg2 : logs.length + size - 1 = (logs.length - 1) + size := by omega
        rw [hdl, harg, harg2, Nat.add_div_right _ hs]

theorem chunkSlicesGo_get (size : Nat) (hs : 0 < size) :
    ∀ fuel logs (i : Nat) (hi : i < (chunkSlicesGo size fuel logs).length),
      (chunkSlicesGo size fuel logs).get ⟨i, hi⟩ = (logs.drop (i * size)).take size := by
  intro fuel
  induction fuel with
  | zero => intro logs i hi; simp [chunkSlicesGo] at hi
  | succ n ih =>
    intro logs i hi
    by_cases hl : logs = []
    · simp [chunkSlicesGo, hl] at hi
    · have hcond : ¬(logs = [] ∨ size = 0) := by
        simp [hl]
        omega
      have heq : chunkSlicesGo size (n + 1) logs
          = logs.take size :: chunkSlicesGo size n (logs.drop size) := by
        rw [chunkSlicesGo, if_neg hcond]
      rw [List.get_of_eq heq ⟨i, hi⟩]
      rcases i with _ | j
      · simp
      · have hi' : j < (chunkSlicesGo size n (logs.drop size)).length := by
          have h2 := hi
          rw [heq, List.length_cons] at h2
          omega
        have hstep : (logs.take size :: chunkSlicesGo size n (logs.drop size)).get
            ⟨j + 1, heq ▸ hi⟩ = (chunkSlicesGo size n (logs.drop size)).get ⟨j, hi'⟩ := by
          simp
        rw [hstep, ih _ j hi', List.drop_drop]
        have harith : size + j * size = (j + 1) * size := by ring
        rw [harith]

/-! ## Facts about stripping and the header matcher -/

theorem dropWhileHeadFalse {α : Type} {p : α → Bool} :
    ∀ {l : List α} {c : α} {t : List α}, l.dropWhile p = c :: t → p c = false := by
  intro l
  induction l with
  | nil => intro c t h; exact List.noConfusion h
  | cons a l ih =>
    intro c t h
    by_cases hp : p a
    · rw [List.dropWhile_cons_of_pos hp] at h
      exact ih h
    · rw [List.dropWhile_cons_of_neg hp] at h
      rw [← (List.cons.inj h).1]
      exact Bool.of_not_eq_true hp

/-- The stripped string never ends in a whitespace character. -/
theorem pyStrip_last_not_ws (s : String) (X : List Char) (c : Char)
    (h : (pyStrip s).data = X ++ [c]) : isPyWs c = false := by
  have hdata : (pyStrip s).data
      = ((s.data.dropWhile isPyWs).reverse.dropWhile isPyWs).reverse := rfl
  rw [hdata] at h
  have hrev : (s.data.dropWhile isPyWs).reverse.dropWhile isPyWs = c :: X.reverse := by
    have := congrArg List.reverse h
    rw [List.reverse_reverse, List.reverse_append] at this
    simpa using this
  exact dropWhileHeadFalse hrev

/-- Reversed form of `pyStrip_last_not_ws`: the first character of the
reversal of a stripped string is not whitespace. -/
theorem pyStrip_rev_head_not_ws (s : String) (c : Char)
    (h : (pyStrip s).data.reverse.head? = some c) : isPyWs c = false := by
  have hdata : (pyStrip s).data.reverse
      = (s.data.dropWhile isPyWs).reverse.dropWhile isPyWs := by
    conv_lhs => rw [show (pyStrip s).data
      = ((s.data.dropWhile isPyWs).reverse.dropWhile isPyWs).reverse from rfl]
    rw [List.reverse_reverse]
  rw [hdata] at h
  cases hu : (s.data.dropWhile isPyWs).reverse.dropWhile isPyWs with
  | nil => rw [hu] at h; exact Option.noConfusion h
  | cons a t =>
    rw [hu] at h
    have hac : a = c := by simpa using h
    rw [← hac]
    exact dropWhileHeadFalse hu

/-- The stripped string never starts with a whitespace character. -/
theorem pyStrip_head_not_ws (s : String) (c : Char) (X : List Char)
    (h : (pyStrip s).data = c :: X) : isPyWs c = false := by
  have hdata : (pyStrip s).data
      = ((s.data.dropWhile isPyWs).reverse.dropWhile isPyWs).reverse := rfl
  rw [hdata] at h
  -- c is the last element of the inner dropWhile result; all elements that
  -- dropWhile isPyWs keeps... the FIRST kept element is non-ws; the last of
  -- the reversed list is the head of the unreversed one.
  have hrev : (s.data.dropWhile isPyWs).reverse.dropWhile isPyWs
      = ((s.data.dropWhile isPyWs).reverse.dropWhile isPyWs) := rfl
  -- obtain the head of `s.data.dropWhile isPyWs`
  cases hd : s.data.dropWhile isPyWs with
  | nil => rw [hd] at h; simp at h
  | cons a t =>
    have ha : isPyWs a = false := dropWhileHeadFalse hd
    -- (a :: t).reverse = t.reverse ++ [a]; dropping ws from it keeps the
    -- trailing `a` (a is not ws), so the reverse starts with a segment of
    -- t.reverse and still ends with `a`; reversing again starts with `a`.
    have hsuffix : ∃ pre, (a :: t).reverse.dropWhile isPyWs = pre ++ [a] := by
      rw [List.reverse_cons]
      generalize t.reverse = u
      induction u with
      | nil => exact ⟨[], by simp [List.dropWhile, ha]⟩
      | cons b v ihv =>
        by_cases hb : isPyWs b
        · obtain ⟨pre, hpre⟩ := ihv
          refine ⟨pre, ?_⟩
          rw [List.cons_append, List.dropWhile_cons_of_pos hb]
          exact hpre
        · exact ⟨b :: v, by rw [List.cons_append,
            List.dropWhile_cons_of_neg hb]⟩
    obtain ⟨pre, hpre⟩ := hsuffix
    rw [hd] at h
    rw [hpre] at h
    rw [List.reverse_append] at h
    simp at h
    rw [← h.1]
    exact ha

theorem takeDigitsN_decomp : ∀ (n : Nat) {cs d r : List Char},
    takeDigitsN n cs = some (d, r) → cs = d ++ r ∧ (∀ c ∈ d, isDigitChar c = true) := by
  intro n
  induction n with
  | zero =>
    intro cs d r h
    simp [takeDigitsN] at h
    simp [h.1, ← h.2]
  | succ k ih =>
    intro cs d r h
    cases cs with
    | nil => simp [takeDigitsN] at h
    | cons c cs1 =>
      by_cases hd : isDigitChar c
      · rw [takeDigitsN, if_pos hd] at h
        cases hk : takeDigitsN k cs1 with
        | none => rw [hk] at h; simp at h
        | some p =>
          obtain ⟨d', r'⟩ := p
          rw [hk] at h
          rw [Option.map_some'] at h
          have hpair := Option.some.inj h
          have h1 : c :: d' = d := congrArg Prod.fst hpair
          have h2 : r' = r := congrArg Prod.snd hpair
          obtain ⟨heq, hdig⟩ := ih hk
          subst h1
          subst h2
          constructor
          · rw [List.cons_append, ← heq]
          · intro x hx
            rcases List.mem_cons.mp hx with hx1 | hx2
            · rw [hx1]; exact hd
            · exact hdig x hx2
      · rw [takeDigitsN, if_neg hd] at h
        exact Option.noConfusion h

theorem expectChar_decomp {ch : Char} {cs r : List Char}
    (h : expectChar ch cs = some r) : cs = ch :: r := by
  cases cs with
  | nil => simp [expectChar] at h
  | cons c cs1 =>
    by_cases hc : c = ch
    · simp [expectChar, hc] at h
      rw [hc, h]
    · simp [expectChar, hc] at h

/-- A successful timestamp match consumes exactly the group-1 characters. -/
theorem matchTs_decomp {cs g r : List Char} (h : matchTs cs = some (g, r)) :
    cs = g ++ r := by
  rw [matchTs] at h
  cases h1 : takeDigitsN 4 cs with
  | none => rw [h1] at h; simp [Option.bind] at h
  | some p1 =>
    obtain ⟨d1, r1⟩ := p1
    rw [h1] at h
    simp only [Option.bind_eq_bind, Option.some_bind] at h
    cases h2 : expectChar '-' r1 with
    | none => rw [h2] at h; simp at h
    | some r2 =>
      rw [h2] at h
      simp only [Option.some_bind] at h
      cases h3 : takeDigitsN 2 r2 with
      | none => rw [h3] at h; simp at h
      | some p3 =>
        obtain ⟨d2, r3⟩ := p3
        rw [h3] at h
        simp only [Option.some_bind] at h
        cases h4 : expectChar '-' r3 with
        | none => rw [h4] at h; simp at h
        | some r4 =>
          rw [h4] at h
          simp only [Option.some_bind] at h
          cases h5 : takeDigitsN 2 r4 with
          | none => rw [h5] at h; simp at h
          | some p5 =>
            obtain ⟨d3, r5⟩ := p5
            rw [h5] at h
            simp only [Option.some_bind] at h
            cases h6 : expectChar ' ' r5 with
            | none => rw [h6] at h; simp at h
            | some r6 =>
              rw [h6] at h
              simp only [Option.some_bind] at h
              cases h7 : takeDigitsN 2 r6 with
              | none => rw [h7] at h; simp at h
              | some p7 =>
                obtain ⟨d4, r7⟩ := p7
                rw [h7] at h
                simp only [Option.some_bind] at h
                cases h8 : expectChar ':' r7 with
                | none => rw [h8] at h; simp at h
                | some r8 =>
                  rw [h8] at h
                  simp only [Option.some_bind] at h
                  cases h9 : takeDigitsN 2 r8 with
                  | none => rw [h9] at h; simp at h
                  | some p9 =>
                    obtain ⟨d5, r9⟩ := p9
                    rw [h9] at h
                    simp only [Option.some_bind] at h
                    cases h10 : expectChar ':' r9 with
                    | none => rw [h10] at h; simp at h
                    | some r10 =>
                      rw [h10] at h
                      simp only [Option.some_bind] at h
                      cases h11 : takeDigitsN 2 r10 with
                      | none => rw [h11] at h; simp at h
                      | some p11 =>
                        obtain ⟨d6, r11⟩ := p11
                        rw [h11] at h
                        simp only [Option.some_bind, Option.pure_def,
                          Option.some.injEq, Prod.mk.injEq] at h
                        obtain ⟨hg, hr⟩ := h
                        rw [← hg, ← hr]
                        rw [(takeDigitsN_decomp 4 h1).1, (expectChar_decomp h2),
                          (takeDigitsN_decomp 2 h3).1, (expectChar_decomp h4),
                          (takeDigitsN_decomp 2 h5).1, (expectChar_decomp h6),
                          (takeDigitsN_decomp 2 h7).1, (expectChar_decomp h8),
                          (takeDigitsN_decomp 2 h9).1, (expectChar_decomp h10),
                          (takeDigitsN_decomp 2 h11).1]
                        simp

/-- `matchCommaDigits` only ever drops a prefix. -/
theorem matchCommaDigits_suffix (cs : List Char) :
    ∃ pre, cs = pre ++ matchCommaDigits cs := by
  unfold matchCommaDigits
  split
  · next d rest =>
    by_cases hd : isDigitChar d
    · rw [if_pos hd]
      refine ⟨',' :: (d :: rest).takeWhile isDigitChar, ?_⟩
      rw [List.cons_append]
      congr 1
      exact (List.takeWhile_append_dropWhile ..).symm
    · rw [if_neg hd]
      exact ⟨[], rfl⟩
  · exact ⟨[], rfl⟩

/-- `afterBracketOpen` only ever drops a prefix. -/
theorem afterBracketOpen_suffix (cs : List Char) :
    ∃ pre, cs = pre ++ afterBracketOpen cs := by
  unfold afterBracketOpen
  split
  · next rest => exact ⟨['['], rfl⟩
  · exact ⟨[], rfl⟩

/-- `afterBracketClose` only ever drops a prefix. -/
theorem afterBracketClose_suffix (cs : List Char) :
    ∃ pre, cs = pre ++ afterBracketClose cs := by
  unfold afterBracketClose
  split
  · next rest => exact ⟨[']'], rfl⟩
  · exact ⟨[], rfl⟩

/-- On a stripped line, group 3 of the header pattern is never empty:
the `\s+` before it would otherwise sit at the end of the line, but a
stripped line cannot end in whitespace. -/
theorem text_log_match_g3_ne (raw : String) (m : TextMatch)
    (h : text_log_match (pyStrip raw) = some m) : m.g3 ≠ "" := by
  intro hg3
  rw [text_log_match] at h
  cases hm1 : matchTs (pyStrip raw).data with
  | none => rw [hm1] at h; exact Option.noConfusion h
  | some p =>
    obtain ⟨ts, r1⟩ := p
    rw [hm1] at h
    simp only at h
    by_cases hsp1 : (matchCommaDigits r1).takeWhile isPyWs = []
    · rw [if_pos hsp1] at h; exact Option.noConfusion h
    · rw [if_neg hsp1] at h
      by_cases hw : (afterBracketOpen
          ((matchCommaDigits r1).dropWhile isPyWs)).takeWhile isWordChar = []
      · rw [if_pos hw] at h; exact Option.noConfusion h
      · rw [if_neg hw] at h
        set r4 := afterBracketOpen ((matchCommaDigits r1).dropWhile isPyWs) with hr4
        set r6 := afterBracketClose (r4.dropWhile isWordChar) with hr6
        by_cases hsp2 : r6.takeWhile isPyWs = []
        · rw [if_pos hsp2] at h; exact Option.noConfusion h
        · rw [if_neg hsp2] at h
          have hm := Option.some.inj h
          have hg3' : (r6.dropWhile isPyWs) = [] := by
            have hz := congrArg TextMatch.g3 hm
            rw [hg3] at hz
            simpa [String.ext_iff] using hz.symm
          -- so r6 is entirely whitespace and non-empty
          have hr6eq : r6 = r6.takeWhile isPyWs := by
            conv_lhs => rw [← List.takeWhile_append_dropWhile (p := isPyWs) (l := r6)]
            rw [hg3']
            simp
          have hr6ne : r6 ≠ [] := fun hz => hsp2 (by rw [hz]; rfl)
          -- r6 sits at the end of the stripped line
          obtain ⟨pre1, e6⟩ := afterBracketClose_suffix (r4.dropWhile isWordChar)
          rw [← hr6] at e6
          obtain ⟨pre2, e4⟩ := afterBracketOpen_suffix
            ((matchCommaDigits r1).dropWhile isPyWs)
          rw [← hr4] at e4
          obtain ⟨pre3, e2⟩ := matchCommaDigits_suffix r1
          have e3 := (List.takeWhile_append_dropWhile (p := isPyWs)
            (l := matchCommaDigits r1)).symm
          have e5 := (List.takeWhile_append_dropWhile (p := isWordChar) (l := r4)).symm
          have hline : (pyStrip raw).data
              = ts ++ (pre3 ++ ((matchCommaDigits r1).takeWhile isPyWs ++ (pre2 ++
                (r4.takeWhile isWordChar ++ (pre1 ++ r6))))) :=
            calc (pyStrip raw).data
                = ts ++ r1 := matchTs_decomp hm1
              _ = ts ++ (pre3 ++ matchCommaDigits r1) :=
                  congrArg (fun x => ts ++ x) e2
              _ = ts ++ (pre3 ++ ((matchCommaDigits r1).takeWhile isPyWs
                    ++ (matchCommaDigits r1).dropWhile isPyWs)) :=
                  congrArg (fun x => ts ++ (pre3 ++ x)) e3
              _ = ts ++ (pre3 ++ ((matchCommaDigits r1).takeWhile isPyWs
                    ++ (pre2 ++ r4))) :=
                  congrArg (fun x => ts ++ (pre3 ++
                    ((matchCommaDigits r1).takeWhile isPyWs ++ x))) e4
              _ = ts ++ (pre3 ++ ((matchCommaDigits r1).takeWhile isPyWs
                    ++ (pre2 ++ (r4.takeWhile isWordChar ++ r4.dropWhile isWordChar)))) :=
                  congrArg (fun x => ts ++ (pre3 ++
                    ((matchCommaDigits r1).takeWhile isPyWs ++ (pre2 ++ x)))) e5
              _ = ts ++ (pre3 ++ ((matchCommaDigits r1).takeWhile isPyWs
                    ++ (pre2 ++ (r4.takeWhile isWordChar ++ (pre1 ++ r6))))) :=
                  congrArg (fun x => ts ++ (pre3 ++
                    ((matchCommaDigits r1).takeWhile isPyWs
                      ++ (pre2 ++ (r4.takeWhile isWordChar ++ x))))) e6
          obtain ⟨r6', c, hc⟩ := (List.eq_nil_or_concat r6).resolve_left hr6ne
          rw [List.concat_eq_append] at hc
          have hcws : isPyWs c = true := by
            have hmem : c ∈ r6.takeWhile isPyWs := by
              rw [← hr6eq, hc]
              exact List.mem_append_right _ (by simp)
            exact List.mem_takeWhile_imp hmem
          have hrev : (pyStrip raw).data.reverse.head? = some c := by
            rw [hline, hc]
            simp [List.reverse_append]
          have hbad := pyStrip_rev_head_not_ws raw c hrev
          rw [hcws] at hbad
          exact Bool.noConfusion hbad

/-! ## Agreement of the instrumented parser with `structure_logs` -/

theorem processLineT_erase (st : TState) (p : Nat × String) :
    processLine (eraseSt st) p.2 = (processLineT st p).map eraseSt := by
  obtain ⟨i, rawLine⟩ := p
  by_cases h0 : pyStrip rawLine = ""
  · simp [processLine, processLineT, h0, Except.map]
  · rw [processLine, processLineT]
    cases hjl : json_loads (pyStrip rawLine) with
    | some v =>
      cases hak : allThreeKeys v with
      | error e =>
        simp [h0, hjl, hak, Bind.bind, Except.bind, Except.map]
      | ok b =>
        cases b with
        | true =>
          cases hs1 : pySubscript v "timestamp" with
          | error e =>
            simp [h0, hjl, hak, hs1, Bind.bind, Except.bind, Except.map]
          | ok t =>
            cases hs2 : pySubscript v "level" with
            | error e =>
              simp [h0, hjl, hak, hs1, hs2, Bind.bind, Except.bind, Except.map]
            | ok l =>
              cases hs3 : pySubscript v "message" with
              | error e =>
                simp [h0, hjl, hak, hs1, hs2, hs3, Bind.bind, Except.bind, Except.map]
              | ok mv =>
                cases hc : st.current with
                | none =>
                  simp [h0, hjl, hak, hs1, hs2, hs3, hc, Bind.bind, Except.bind,
                    Except.map, eraseSt, eraseT, pure, Except.pure]
                | some c =>
                  simp [h0, hjl, hak, hs1, hs2, hs3, hc, Bind.bind, Except.bind,
                    Except.map, eraseSt, eraseT, pure, Except.pure]
        | false =>
          cases hm : text_log_match (pyStrip rawLine) with
          | some m =>
            cases hc : st.current with
            | none =>
              simp [h0, hjl, hak, hm, hc, Bind.bind, Except.bind, Except.map,
                eraseSt, eraseT, pure, Except.pure]
            | some c =>
              simp [h0, hjl, hak, hm, hc, Bind.bind, Except.bind, Except.map,
                eraseSt, eraseT, pure, Except.pure]
          | none =>
            cases hc : st.current with
            | none =>
              simp [h0, hjl, hak, hm, hc, Bind.bind, Except.bind, Except.map,
                eraseSt, eraseT, pure, Except.pure]
            | some c =>
              cases hmsg : c.record.message <;>
                simp [h0, hjl, hak, hm, hc, hmsg, Bind.bind, Except.bind, Except.map,
                  eraseSt, eraseT, pure, Except.pure, throw, throwThe,
                  MonadExceptOf.throw]
    | none =>
      cases hm : text_log_match (pyStrip rawLine) with
      | some m =>
        cases hc : st.current with
        | none =>
          simp [h0, hjl, hm, hc, Bind.bind, Except.bind, Except.map,
            eraseSt, eraseT, pure, Except.pure]
        | some c =>
          simp [h0, hjl, hm, hc, Bind.bind, Except.bind, Except.map,
            eraseSt, eraseT, pure, Except.pure]
      | none =>
        cases hc : st.current with
        | none =>
          simp [h0, hjl, hm, hc, Bind.bind, Except.bind, Except.map,
            eraseSt, eraseT, pure, Except.pure]
        | some c =>
          cases hmsg : c.record.message <;>
            simp [h0, hjl, hm, hc, hmsg, Bind.bind, Except.bind, Except.map,
              eraseSt, eraseT, pure, Except.pure, throw, throwThe,
              MonadExceptOf.throw]

theorem foldl_erase : ∀ (lines : List String) (k : Nat) (st : TState),
    lines.foldlM processLine (eraseSt st)
      = ((enumLines k lines).foldlM processLineT st).map eraseSt := by
  intro lines
  induction lines with
  | nil =>
    intro k st
    simp [enumLines, Except.map, pure, Except.pure]
  | cons l ls ih =>
    intro k st
    rw [enumLines, List.foldlM_cons, List.foldlM_cons]
    rw [show processLine (eraseSt st) l = (processLineT st (k, l)).map eraseSt from
      processLineT_erase st (k, l)]
    cases hstep : processLineT st (k, l) with
    | error e => simp [Except.map, Bind.bind, Except.bind]
    | ok st1 =>
      simp only [Except.map, Bind.bind, Except.bind]
      exact ih (k + 1) st1

theorem structure_logs_eq_tagged (raw : String) :
    structure_logs raw = (structure_logs_tagged raw).map (List.map eraseT) := by
  rw [structure_logs, structure_logs_tagged]
  have h := foldl_erase (pySplitlines raw) 0 ⟨[], none⟩
  rw [show eraseSt ⟨[], none⟩ = (⟨[], none⟩ : ParseState) from rfl] at h
  rw [h]
  cases hf : (enumLines 0 (pySplitlines raw)).foldlM processLineT ⟨[], none⟩ with
  | error e => simp [Except.map, Bind.bind, Except.bind]
  | ok st =>
    cases hc : st.current with
    | none =>
      simp [Except.map, Bind.bind, Except.bind, pure, Except.pure, eraseSt, eraseT, hc]
    | some c =>
      simp [Except.map, Bind.bind, Except.bind, pure, Except.pure, eraseSt, eraseT, hc]

/-- Characterization of one successful parser step: it either skips a blank
line, opens a fresh record (from the JSON branch, the header branch, or an
orphan unstructured line) finalizing the previous one, or extends the open
record's message. -/
theorem processLineT_cases (st : TState) (i : Nat) (rawLine : String) (st' : TState)
    (h : processLineT st (i, rawLine) = .ok st') :
    st' = st ∨
    (∃ r : PyRecord, st' = ⟨st.structured ++ st.current.toList, some ⟨r, true, i⟩⟩) ∨
    (∃ m : TextMatch, text_log_match (pyStrip rawLine) = some m ∧
      st' = ⟨st.structured ++ st.current.toList,
             some ⟨⟨.pystr m.g1, .pystr m.g2, .pystr m.g3⟩, false, i⟩⟩) ∨
    (∃ c s, st.current = some c ∧ c.record.message = .pystr s ∧ pyStrip rawLine ≠ "" ∧
      st' = ⟨st.structured, some { c with record := { c.record with
        message := .pystr (s ++ "\n" ++ pyStrip rawLine) } }⟩) ∨
    (∃ c xs, st.current = some c ∧ c.record.message = .pylist xs ∧ pyStrip rawLine ≠ "" ∧
      st' = ⟨st.structured, some { c with record := { c.record with
        message := .pylist (pyListExtendStr xs ("\n" ++ pyStrip rawLine)) } }⟩) ∨
    (st.current = none ∧ pyStrip rawLine ≠ "" ∧
      st' = ⟨st.structured,
             some ⟨⟨.pystr "", .pystr "UNKNOWN", .pystr (pyStrip rawLine)⟩, false, i⟩⟩) := by
  rw [processLineT] at h
  by_cases h0 : pyStrip rawLine = ""
  · rw [if_pos h0] at h
    exact Or.inl (Except.ok.inj h).symm
  · rw [if_neg h0] at h
    cases hjl : json_loads (pyStrip rawLine) with
    | some v =>
      cases hak : allThreeKeys v with
      | error e =>
        simp only [hjl, hak, Bind.bind, Except.bind, pure, Except.pure] at h
        exact Except.noConfusion h
      | ok b =>
        cases b with
        | true =>
          cases hs1 : pySubscript v "timestamp" with
          | error e =>
            simp only [hjl, hak, hs1, Bind.bind, Except.bind, pure, Except.pure,
              if_true] at h
            exact Except.noConfusion h
          | ok t =>
            cases hs2 : pySubscript v "level" with
            | error e =>
              simp only [hjl, hak, hs1, hs2, Bind.bind, Except.bind, pure,
                Except.pure, if_true] at h
              exact Except.noConfusion h
            | ok l =>
              cases hs3 : pySubscript v "message" with
              | error e =>
                simp only [hjl, hak, hs1, hs2, hs3, Bind.bind, Except.bind, pure,
                  Except.pure, if_true] at h
                exact Except.noConfusion h
              | ok mv =>
                simp only [hjl, hak, hs1, hs2, hs3, Bind.bind, Except.bind, pure,
                  Except.pure, if_true] at h
                exact Or.inr (Or.inl ⟨⟨t, l, mv⟩, (Except.ok.inj h).symm⟩)
        | false =>
          cases hm : text_log_match (pyStrip rawLine) with
          | some m =>
            simp only [hjl, hak, hm, Bind.bind, Except.bind, pure, Except.pure,
              Bool.false_eq_true, if_false] at h
            exact Or.inr (Or.inr (Or.inl ⟨m, rfl, (Except.ok.inj h).symm⟩))
          | none =>
            cases hc : st.current with
            | none =>
              simp only [hjl, hak, hm, hc, Bind.bind, Except.bind, pure,
                Except.pure, Bool.false_eq_true, if_false] at h
              exact Or.inr (Or.inr (Or.inr (Or.inr (Or.inr
                ⟨rfl, h0, (Except.ok.inj h).symm⟩))))
            | some c =>
              cases hmsg : c.record.message with
              | pystr s =>
                simp only [hjl, hak, hm, hc, hmsg, Bind.bind, Except.bind, pure,
                  Except.pure, Bool.false_eq_true, if_false] at h
                exact Or.inr (Or.inr (Or.inr (Or.inl
                  ⟨c, s, rfl, hmsg, h0, (Except.ok.inj h).symm⟩)))
              | pynone =>
                simp only [hjl, hak, hm, hc, hmsg, Bind.bind, Except.bind, pure,
                  Except.pure, Bool.false_eq_true, if_false, throw, throwThe,
                  MonadExceptOf.throw] at h
                exact Except.noConfusion h
              | pybool b2 =>
                simp only [hjl, hak, hm, hc, hmsg, Bind.bind, Except.bind, pure,
                  Except.pure, Bool.false_eq_true, if_false, throw, throwThe,
                  MonadExceptOf.throw] at h
                exact Except.noConfusion h
              | pyint n =>
                simp only [hjl, hak, hm, hc, hmsg, Bind.bind, Except.bind, pure,
                  Except.pure, Bool.false_eq_true, if_false, throw, throwThe,
                  MonadExceptOf.throw] at h
                exact Except.noConfusion h
              | pyfloat f =>
                simp only [hjl, hak, hm, hc, hmsg, Bind.bind, Except.bind, pure,
                  Except.pure, Bool.false_eq_true, if_false, throw, throwThe,
                  MonadExceptOf.throw] at h
                exact Except.noConfusion h
              | pylist xs =>
                simp only [hjl, hak, hm, hc, hmsg, Bind.bind, Except.bind, pure,
                  Except.pure, Bool.false_eq_true, if_false] at h
                exact Or.inr (Or.inr (Or.inr (Or.inr (Or.inl
                  ⟨c, xs, rfl, hmsg, h0, (Except.ok.inj h).symm⟩))))
              | pydict es =>
                simp only [hjl, hak, hm, hc, hmsg, Bind.bind, Except.bind, pure,
                  Except.pure, Bool.false_eq_true, if_false, throw, throwThe,
                  MonadExceptOf.throw] at h
                exact Except.noConfusion h
    | none =>
      cases hm : text_log_match (pyStrip rawLine) with
      | some m =>
        simp only [hjl, hm, Bind.bind, Except.bind, pure, Except.pure] at h
        exact Or.inr (Or.inr (Or.inl ⟨m, rfl, (Except.ok.inj h).symm⟩))
      | none =>
        cases hc : st.current with
        | none =>
          simp only [hjl, hm, hc, Bind.bind, Except.bind, pure, Except.pure] at h
          exact Or.inr (Or.inr (Or.inr (Or.inr (Or.inr
            ⟨rfl, h0, (Except.ok.inj h).symm⟩))))
        | some c =>
          cases hmsg : c.record.message with
          | pystr s =>
            simp only [hjl, hm, hc, hmsg, Bind.bind, Except.bind, pure,
              Except.pure] at h
            exact Or.inr (Or.inr (Or.inr (Or.inl
              ⟨c, s, rfl, hmsg, h0, (Except.ok.inj h).symm⟩)))
          | pynone =>
            simp only [hjl, hm, hc, hmsg, Bind.bind, Except.bind, pure, Except.pure,
              throw, throwThe, MonadExceptOf.throw] at h
            exact Except.noConfusion h
          | pybool b2 =>
            simp only [hjl, hm, hc, hmsg, Bind.bind, Except.bind, pure, Except.pure,
              throw, throwThe, MonadExceptOf.throw] at h
            exact Except.noConfusion h
          | pyint n =>
            simp only [hjl, hm, hc, hmsg, Bind.bind, Except.bind, pure, Except.pure,
              throw, throwThe, MonadExceptOf.throw] at h
            exact Except.noConfusion h
          | pyfloat f =>
            simp only [hjl, hm, hc, hmsg, Bind.bind, Except.bind, pure, Except.pure,
              throw, throwThe, MonadExceptOf.throw] at h
            exact Except.noConfusion h
          | pylist xs =>
            simp only [hjl, hm, hc, hmsg, Bind.bind, Except.bind, pure, Except.pure] at h
            exact Or.inr (Or.inr (Or.inr (Or.inr (Or.inl
              ⟨c, xs, rfl, hmsg, h0, (Except.ok.inj h).symm⟩))))
          | pydict es =>
            simp only [hjl, hm, hc, hmsg, Bind.bind, Except.bind, pure, Except.pure,
              throw, throwThe, MonadExceptOf.throw] at h
            exact Except.noConfusion h

/-! ## Invariants along the parse -/

theorem chain_snoc {l : List Nat} {i : Nat} (hc : List.Chain' (· < ·) l)
    (hb : ∀ t ∈ l, t < i) : List.Chain' (· < ·) (l ++ [i]) := by
  rw [List.chain'_append]
  refine ⟨hc, List.chain'_singleton i, ?_⟩
  intro x hx y hy
  simp only [List.head?_cons, Option.mem_def, Option.some.injEq] at hy
  subst hy
  obtain ⟨hne, hxl⟩ := List.mem_getLast?_eq_getLast hx
  rw [hxl]
  exact hb _ (List.getLast_mem hne)

theorem tags_step (st : TState) (i : Nat) (rawLine : String) (st' : TState)
    (h : processLineT st (i, rawLine) = .ok st')
    (hc : List.Chain' (· < ·) (tagsOf st)) (hb : ∀ t ∈ tagsOf st, t < i) :
    List.Chain' (· < ·) (tagsOf st') ∧ ∀ t ∈ tagsOf st', t < i + 1 := by
  rcases processLineT_cases st i rawLine st' h with heq | ⟨r, heq⟩ | ⟨m, hm, heq⟩ |
    ⟨c, s, hcur, hmsg, hne, heq⟩ | ⟨c, xs, hcur, hmsg, hne, heq⟩ | ⟨hcur, hne, heq⟩
  · subst heq
    exact ⟨hc, fun t ht => Nat.lt_succ_of_lt (hb t ht)⟩
  · have htags : tagsOf st' = tagsOf st ++ [i] := by
      rw [heq]; simp [tagsOf]
    rw [htags]
    refine ⟨chain_snoc hc hb, ?_⟩
    intro t ht
    rcases List.mem_append.mp ht with h1 | h2
    · exact Nat.lt_succ_of_lt (hb t h1)
    · rw [List.mem_singleton.mp h2]
      omega
  · have htags : tagsOf st' = tagsOf st ++ [i] := by
      rw [heq]; simp [tagsOf]
    rw [htags]
    refine ⟨chain_snoc hc hb, ?_⟩
    intro t ht
    rcases List.mem_append.mp ht with h1 | h2
    · exact Nat.lt_succ_of_lt (hb t h1)
    · rw [List.mem_singleton.mp h2]
      omega
  · have htags : tagsOf st' = tagsOf st := by
      rw [heq]; simp [tagsOf, hcur]
    rw [htags]
    exact ⟨hc, fun t ht => Nat.lt_succ_of_lt (hb t ht)⟩
  · have htags : tagsOf st' = tagsOf st := by
      rw [heq]; simp [tagsOf, hcur]
    rw [htags]
    exact ⟨hc, fun t ht => Nat.lt_succ_of_lt (hb t ht)⟩
  · have htags : tagsOf st' = tagsOf st ++ [i] := by
      rw [heq]; simp [tagsOf, hcur]
    rw [htags]
    refine ⟨chain_snoc hc hb, ?_⟩
    intro t ht
    rcases List.mem_append.mp ht with h1 | h2
    · exact Nat.lt_succ_of_lt (hb t h1)
    · rw [List.mem_singleton.mp h2]
      omega

theorem fold_tags : ∀ (lines : List String) (k : Nat) (st st' : TState),
    List.Chain' (· < ·) (tagsOf st) → (∀ t ∈ tagsOf st, t < k) →
    (enumLines k lines).foldlM processLineT st = .ok st' →
    List.Chain' (· < ·) (tagsOf st') ∧ ∀ t ∈ tagsOf st', t < k + lines.length := by
  intro lines
  induction lines with
  | nil =>
    intro k st st' hc hb hf
    rw [enumLines, List.foldlM_nil] at hf
    have : st = st' := Except.ok.inj hf
    subst this
    exact ⟨hc, fun t ht => by have := hb t ht; omega⟩
  | cons l ls ih =>
    intro k st st' hc hb hf
    rw [enumLines, List.foldlM_cons] at hf
    cases hstep : processLineT st (k, l) with
    | error e => rw [hstep] at hf; simp [Bind.bind, Except.bind] at hf
    | ok st1 =>
      rw [hstep] at hf
      simp only [Bind.bind, Except.bind] at hf
      obtain ⟨hc1, hb1⟩ := tags_step st k l st1 hstep hc hb
      obtain ⟨hc2, hb2⟩ := ih (k + 1) st1 st' hc1 hb1 hf
      refine ⟨hc2, fun t ht => ?_⟩
      have := hb2 t ht
      simp only [List.length_cons]
      omega

theorem string_append_newline_ne (s line : String) : s ++ "\n" ++ line ≠ "" := by
  intro he
  have hlen := congrArg String.length he
  rw [String.length_append, String.length_append,
    show ("\n" : String).length = 1 from rfl,
    show ("" : String).length = 0 from rfl] at hlen
  omega

theorem msg_step (st : TState) (i : Nat) (rawLine : String) (st' : TState)
    (h : processLineT st (i, rawLine) = .ok st') (hinv : MsgInv st) : MsgInv st' := by
  rcases processLineT_cases st i rawLine st' h with heq | ⟨r, heq⟩ | ⟨m, hm, heq⟩ |
    ⟨c, s, hcur, hmsg, hne, heq⟩ | ⟨c, xs, hcur, hmsg, hne, heq⟩ | ⟨hcur, hne, heq⟩
  · subst heq
    exact hinv
  · subst heq
    intro tr htr hfj
    simp only [Option.toList_some] at htr
    rcases List.mem_append.mp htr with h1 | h2
    · exact hinv tr h1 hfj
    · rw [List.mem_singleton.mp h2] at hfj
      exact Bool.noConfusion hfj
  · subst heq
    intro tr htr hfj
    simp only [Option.toList_some] at htr
    rcases List.mem_append.mp htr with h1 | h2
    · exact hinv tr h1 hfj
    · rw [List.mem_singleton.mp h2]
      exact ⟨m.g3, rfl, text_log_match_g3_ne rawLine m hm⟩
  · subst heq
    intro tr htr hfj
    simp only [Option.toList_some] at htr
    rcases List.mem_append.mp htr with h1 | h2
    · exact hinv tr (List.mem_append_left _ h1) hfj
    · rw [List.mem_singleton.mp h2]
      exact ⟨s ++ "\n" ++ pyStrip rawLine, rfl, string_append_newline_ne _ _⟩
  · -- list extension: only a JSON-born record can carry a list message,
    -- so the non-JSON hypothesis contradicts the invariant for `c`
    subst heq
    intro tr htr hfj
    simp only [Option.toList_some] at htr
    rcases List.mem_append.mp htr with h1 | h2
    · exact hinv tr (List.mem_append_left _ h1) hfj
    · have hcmem : c ∈ st.structured ++ st.current.toList := by
        rw [hcur]
        exact List.mem_append_right _ (List.mem_singleton_self c)
      have hfj2 : c.fromJson = false := by
        rw [List.mem_singleton.mp h2] at hfj
        exact hfj
      obtain ⟨s, hs, -⟩ := hinv c hcmem hfj2
      rw [hmsg] at hs
      exact PyVal.noConfusion hs
  · subst heq
    intro tr htr hfj
    simp only [Option.toList_some] at htr
    rcases List.mem_append.mp htr with h1 | h2
    · exact hinv tr (List.mem_append_left _ h1) hfj
    · rw [List.mem_singleton.mp h2]
      exact ⟨pyStrip rawLine, rfl, hne⟩

theorem fold_msg : ∀ (ps : List (Nat × String)) (st st' : TState),
    MsgInv st → ps.foldlM processLineT st = .ok st' → MsgInv st' := by
  intro ps
  induction ps with
  | nil =>
    intro st st' hi hf
    rw [List.foldlM_nil] at hf
    have : st = st' := Except.ok.inj hf
    subst this
    exact hi
  | cons p ps ih =>
    intro st st' hi hf
    obtain ⟨i, l⟩ := p
    rw [List.foldlM_cons] at hf
    cases hstep : processLineT st (i, l) with
    | error e => rw [hstep] at hf; simp [Bind.bind, Except.bind] at hf
    | ok st1 =>
      rw [hstep] at hf
      simp only [Bind.bind, Except.bind] at hf
      exact ih st1 st' (msg_step st i l st1 hstep hi) hf

/-! ## Joining and re-splitting lines -/

theorem intercalate_go_cons (s : String) :
    ∀ (l : List String) (acc b : String),
      String.intercalate.go acc s (b :: l) = acc ++ s ++ String.intercalate.go b s l := by
  intro l
  induction l with
  | nil =>
    intro acc b
    rfl
  | cons c l' ih =>
    intro acc b
    rw [show String.intercalate.go acc s (b :: c :: l')
        = String.intercalate.go (acc ++ s ++ b) s (c :: l') from rfl]
    rw [ih (acc ++ s ++ b) c, ih b c]
    simp [String.append_assoc]

theorem intercalate_cons (s a : String) (l : List String) (h : l ≠ []) :
    String.intercalate s (a :: l) = a ++ s ++ String.intercalate s l := by
  cases l with
  | nil => exact absurd rfl h
  | cons b l' =>
    rw [show String.intercalate s (a :: b :: l') = String.intercalate.go a s (b :: l')
      from rfl]
    rw [intercalate_go_cons s l' a b]
    rfl

theorem intercalate_append_ne (s : String) :
    ∀ (A B : List String), A ≠ [] → B ≠ [] →
      String.intercalate s (A ++ B)
        = String.intercalate s A ++ s ++ String.intercalate s B := by
  intro A
  induction A with
  | nil => intro B hA hB; exact absurd rfl hA
  | cons a A' ih =>
    intro B hA hB
    cases hA' : A' with
    | nil =>
      rw [show ([a] ++ B) = a :: B from rfl, intercalate_cons s a B hB]
      rfl
    | cons a2 A'' =>
      rw [← hA']
      have hAne : A' ≠ [] := by rw [hA']; simp
      have hAB : A' ++ B ≠ [] := by rw [hA']; simp
      rw [List.cons_append, intercalate_cons s a (A' ++ B) hAB,
        intercalate_cons s a A' hAne, ih B hAne hB]
      simp [String.append_assoc]

theorem takeWhile_append_stop {α : Type} (p : α → Bool) :
    ∀ (l : List α) (x : α) (rest : List α),
      (∀ c ∈ l, p c = true) → p x = false →
      (l ++ x :: rest).takeWhile p = l ∧ (l ++ x :: rest).dropWhile p = x :: rest := by
  intro l
  induction l with
  | nil =>
    intro x rest _ hx
    constructor
    · rw [List.nil_append, List.takeWhile_cons_of_neg (by rw [hx]; exact Bool.false_ne_true)]
    · rw [List.nil_append, List.dropWhile_cons_of_neg (by rw [hx]; exact Bool.false_ne_true)]
  | cons a l' ih =>
    intro x rest hl hx
    have ha : p a = true := hl a (List.mem_cons_self a l')
    have hl' : ∀ c ∈ l', p c = true := fun c hc => hl c (List.mem_cons_of_mem a hc)
    obtain ⟨h1, h2⟩ := ih x rest hl' hx
    constructor
    · rw [List.cons_append, List.takeWhile_cons_of_pos ha, h1]
    · rw [List.cons_append, List.dropWhile_cons_of_pos ha, h2]

theorem takeWhile_all {α : Type} (p : α → Bool) :
    ∀ (l : List α), (∀ c ∈ l, p c = true) →
      l.takeWhile p = l ∧ l.dropWhile p = [] := by
  intro l
  induction l with
  | nil => intro _; exact ⟨rfl, rfl⟩
  | cons a l' ih =>
    intro hl
    have ha : p a = true := hl a (List.mem_cons_self a l')
    obtain ⟨h1, h2⟩ := ih fun c hc => hl c (List.mem_cons_of_mem a hc)
    constructor
    · rw [List.takeWhile_cons_of_pos ha, h1]
    · rw [List.dropWhile_cons_of_pos ha, h2]

/-- A good line (non-empty, separator-free) followed by `\n` and more text
splits off exactly at the `\n`. -/
theorem splitlinesGo_cons (fuel : Nat) (l : String) (rest : List Char)
    (_hne : l ≠ "") (hsep : ∀ c ∈ l.data, isLineSepChar c = false) :
    splitlinesGo (fuel + 1) (l.data ++ '\n' :: rest) = l :: splitlinesGo fuel rest := by
  have hpred : ∀ c ∈ l.data, (fun c => !(isLineSepChar c)) c = true := by
    intro c hc
    simp [hsep c hc]
  have hnl : (fun c => !(isLineSepChar c)) '\n' = false := by
    simp [isLineSepChar]
  obtain ⟨htake, hdrop⟩ := takeWhile_append_stop _ l.data '\n' rest hpred hnl
  have hcs : l.data ++ '\n' :: rest ≠ [] := by
    simp
  rw [splitlinesGo, if_neg hcs, hdrop]
  have heta : String.mk l.data = l := rfl
  rw [htake]
  rfl

theorem splitlinesGo_single (fuel : Nat) (l : String)
    (hne : l ≠ "") (hsep : ∀ c ∈ l.data, isLineSepChar c = false) :
    splitlinesGo (fuel + 1) l.data = [l] := by
  have hpred : ∀ c ∈ l.data, (fun c => !(isLineSepChar c)) c = true := by
    intro c hc
    simp [hsep c hc]
  obtain ⟨htake, hdrop⟩ := takeWhile_all _ l.data hpred
  have hcs : l.data ≠ [] := by
    intro hz
    exact hne (by cases l; simp_all)
  rw [splitlinesGo, if_neg hcs, hdrop, htake]

/-- Splitting inverts joining for a list of good lines. -/
theorem splitlines_intercalate : ∀ (L : List String) (fuel : Nat),
    (∀ l ∈ L, l ≠ "" ∧ ∀ c ∈ l.data, isLineSepChar c = false) →
    (String.intercalate "\n" L).data.length < fuel →
    splitlinesGo fuel (String.intercalate "\n" L).data = L := by
  intro L
  induction L with
  | nil =>
    intro fuel _ hf
    cases fuel with
    | zero => rfl
    | succ f => rfl
  | cons l L' ih =>
    intro fuel hg hf
    obtain ⟨hne, hsep⟩ := hg l (List.mem_cons_self l L')
    cases L' with
    | nil =>
      cases fuel with
      | zero =>
        rw [show String.intercalate "\n" [l] = l from rfl] at hf
        omega
      | succ f =>
        rw [show String.intercalate "\n" [l] = l from rfl] at hf ⊢
        exact splitlinesGo_single f l hne hsep
    | cons l2 L'' =>
      have hL' : l2 :: L'' ≠ [] := by simp
      rw [intercalate_cons "\n" l (l2 :: L'') hL'] at hf ⊢
      have hdata : (l ++ "\n" ++ String.intercalate "\n" (l2 :: L'')).data
          = l.data ++ '\n' :: (String.intercalate "\n" (l2 :: L'')).data := by
        rw [String.data_append, String.data_append]
        simp
      rw [hdata] at hf ⊢
      cases fuel with
      | zero => omega
      | succ f =>
        rw [splitlinesGo_cons f l _ hne hsep]
        have hlen : (String.intercalate "\n" (l2 :: L'')).data.length < f := by
          rw [List.length_append, List.length_cons] at hf
          omega
        rw [ih f (fun x hx => hg x (List.mem_cons_of_mem l hx)) hlen]

/-! ## Serialization round-trip: character classes and the header line -/

theorem digit_not_ws {c : Char} (h : isDigitChar c = true) : isPyWs c = false := by
  rw [isDigitChar, Bool.and_eq_true, decide_eq_true_eq, decide_eq_true_eq] at h
  rw [isPyWs]
  simp only [Bool.or_eq_false_iff, decide_eq_false_iff_not]
  refine ⟨⟨⟨⟨⟨?_, ?_⟩, ?_⟩, ?_⟩, ?_⟩, ?_⟩ <;>
    (intro hx; subst hx; exact absurd h (by decide))

theorem digit_not_jsonWs {c : Char} (h : isDigitChar c = true) : isJsonWs c = false := by
  rw [isDigitChar, Bool.and_eq_true, decide_eq_true_eq, decide_eq_true_eq] at h
  rw [isJsonWs]
  simp only [Bool.or_eq_false_iff, decide_eq_false_iff_not]
  refine ⟨⟨⟨?_, ?_⟩, ?_⟩, ?_⟩ <;>
    (intro hx; subst hx; exact absurd h (by decide))

theorem dropWhile_eq_self_of_head {α : Type} (p : α → Bool) (l : List α)
    (h : ∀ c, l.head? = some c → p c = false) : l.dropWhile p = l := by
  cases l with
  | nil => rfl
  | cons a t =>
    rw [List.dropWhile_cons_of_neg]
    rw [h a rfl]
    exact Bool.false_ne_true

/-- A string whose first and last characters are non-whitespace strips to
itself. -/
theorem pyStrip_eq_self (s : String)
    (hhead : ∀ c, s.data.head? = some c → isPyWs c = false)
    (hlast : ∀ c, s.data.getLast? = some c → isPyWs c = false) :
    pyStrip s = s := by
  rw [pyStrip]
  rw [dropWhile_eq_self_of_head isPyWs s.data hhead]
  rw [dropWhile_eq_self_of_head isPyWs s.data.reverse
    (fun c hc => hlast c (by rw [List.head?_reverse] at hc; exact hc))]
  rw [List.reverse_reverse]

theorem takeDigitsN_append : ∀ (n : Nat) {cs d r : List Char} (X : List Char),
    takeDigitsN n cs = some (d, r) → takeDigitsN n (cs ++ X) = some (d, r ++ X) := by
  intro n
  induction n with
  | zero =>
    intro cs d r X h
    simp [takeDigitsN] at h ⊢
    exact ⟨h.1, by rw [← h.2]⟩
  | succ k ih =>
    intro cs d r X h
    cases cs with
    | nil => simp [takeDigitsN] at h
    | cons c cs1 =>
      by_cases hd : isDigitChar c
      · rw [takeDigitsN, if_pos hd] at h
        rw [List.cons_append, takeDigitsN, if_pos hd]
        cases hk : takeDigitsN k cs1 with
        | none => rw [hk] at h; simp at h
        | some p =>
          obtain ⟨d', r'⟩ := p
          rw [hk] at h
          rw [Option.map_some'] at h
          have hpair := Option.some.inj h
          have hp1 : c :: d' = d := congrArg Prod.fst hpair
          have hp2 : r' = r := congrArg Prod.snd hpair
          rw [ih X hk, Option.map_some', hp1, hp2]
      · rw [takeDigitsN, if_neg hd] at h
        exact Option.noConfusion h

theorem expectChar_append {ch : Char} {cs r : List Char} (X : List Char)
    (h : expectChar ch cs = some r) : expectChar ch (cs ++ X) = some (r ++ X) := by
  cases cs with
  | nil => simp [expectChar] at h
  | cons c cs1 =>
    by_cases hc : c = ch
    · rw [expectChar, if_pos hc] at h
      rw [List.cons_append, expectChar, if_pos hc]
      rw [Option.some.inj h]
    · rw [expectChar, if_neg hc] at h
      exact Option.noConfusion h

theorem takeDigitsN_length : ∀ (n : Nat) {cs d r : List Char},
    takeDigitsN n cs = some (d, r) → d.length = n := by
  intro n
  induction n with
  | zero =>
    intro cs d r h
    simp [takeDigitsN] at h
    rw [h.1]
    rfl
  | succ k ih =>
    intro cs d r h
    cases cs with
    | nil => simp [takeDigitsN] at h
    | cons c cs1 =>
      by_cases hd : isDigitChar c
      · rw [takeDigitsN, if_pos hd] at h
        cases hk : takeDigitsN k cs1 with
        | none => rw [hk] at h; simp at h
        | some p =>
          obtain ⟨d', r'⟩ := p
          rw [hk, Option.map_some'] at h
          have hp1 : c :: d' = d := congrArg Prod.fst (Option.some.inj h)
          rw [← hp1, List.length_cons, ih hk]
      · rw [takeDigitsN, if_neg hd] at h
        exact Option.noConfusion h

set_option maxHeartbeats 1600000 in
/-- The pieces of a successful timestamp match: the input splits as
`g ++ r`, the group starts with a digit, and appending extra input changes
nothing but the rest. -/
theorem matchTs_parts {cs g r : List Char} (h : matchTs cs = some (g, r)) :
    cs = g ++ r ∧
    (∃ d1 d2 d3 d4 d5 d6 : List Char,
      g = d1 ++ '-' :: (d2 ++ '-' :: (d3 ++ ' ' :: (d4 ++ ':' :: (d5 ++ ':' :: d6)))) ∧
      d1.length = 4 ∧
      (∀ c ∈ d1, isDigitChar c = true) ∧ (∀ c ∈ d2, isDigitChar c = true) ∧
      (∀ c ∈ d3, isDigitChar c = true) ∧ (∀ c ∈ d4, isDigitChar c = true) ∧
      (∀ c ∈ d5, isDigitChar c = true) ∧ (∀ c ∈ d6, isDigitChar c = true)) ∧
    ∀ X, matchTs (cs ++ X) = some (g, r ++ X) := by
  refine ⟨matchTs_decomp h, ?_⟩
  rw [matchTs] at h
  cases h1 : takeDigitsN 4 cs with
  | none => rw [h1] at h; simp at h
  | some p1 =>
    obtain ⟨d1, r1⟩ := p1
    rw [h1] at h
    simp only [Option.bind_eq_bind, Option.some_bind] at h
    cases h2 : expectChar '-' r1 with
    | none => rw [h2] at h; simp at h
    | some r2 =>
      rw [h2] at h
      simp only [Option.some_bind] at h
      cases h3 : takeDigitsN 2 r2 with
      | none => rw [h3] at h; simp at h
      | some p3 =>
        obtain ⟨d2, r3⟩ := p3
        rw [h3] at h
        simp only [Option.some_bind] at h
        cases h4 : expectChar '-' r3 with
        | none => rw [h4] at h; simp at h
        | some r4 =>
          rw [h4] at h
          simp only [Option.some_bind] at h
          cases h5 : takeDigitsN 2 r4 with
          | none => rw [h5] at h; simp at h
          | some p5 =>
            obtain ⟨d3, r5⟩ := p5
            rw [h5] at h
            simp only [Option.some_bind] at h
            cases h6 : expectChar ' ' r5 with
            | none => rw [h6] at h; simp at h
            | some r6 =>
              rw [h6] at h
              simp only [Option.some_bind] at h
              cases h7 : takeDigitsN 2 r6 with
              | none => rw [h7] at h; simp at h
              | some p7 =>
                obtain ⟨d4, r7⟩ := p7
                rw [h7] at h
                simp only [Option.some_bind] at h
                cases h8 : expectChar ':' r7 with
                | none => rw [h8] at h; simp at h
                | some r8 =>
                  rw [h8] at h
                  simp only [Option.some_bind] at h
                  cases h9 : takeDigitsN 2 r8 with
                  | none => rw [h9] at h; simp at h
                  | some p9 =>
                    obtain ⟨d5, r9⟩ := p9
                    rw [h9] at h
                    simp only [Option.some_bind] at h
                    cases h10 : expectChar ':' r9 with
                    | none => rw [h10] at h; simp at h
                    | some r10 =>
                      rw [h10] at h
                      simp only [Option.some_bind] at h
                      cases h11 : takeDigitsN 2 r10 with
                      | none => rw [h11] at h; simp at h
                      | some p11 =>
                        obtain ⟨d6, r11⟩ := p11
                        rw [h11] at h
                        simp only [Option.some_bind, Option.pure_def,
                          Option.some.injEq, Prod.mk.injEq] at h
                        obtain ⟨hg, hr⟩ := h
                        constructor
                        · -- the groups: four digit runs and the separators
                          refine ⟨d1, d2, d3, d4, d5, d6, ?_,
                            takeDigitsN_length 4 h1,
                            (takeDigitsN_decomp 4 h1).2, (takeDigitsN_decomp 2 h3).2,
                            (takeDigitsN_decomp 2 h5).2, (takeDigitsN_decomp 2 h7).2,
                            (takeDigitsN_decomp 2 h9).2, (takeDigitsN_decomp 2 h11).2⟩
                          rw [← hg]
                          simp [List.append_assoc]
                        · -- appending input
                          intro X
                          have hcseq : cs = g ++ r := matchTs_decomp (by
                            rw [matchTs, h1]
                            simp only [Option.bind_eq_bind, Option.some_bind]
                            rw [h2]
                            simp only [Option.some_bind]
                            rw [h3]
                            simp only [Option.some_bind]
                            rw [h4]
                            simp only [Option.some_bind]
                            rw [h5]
                            simp only [Option.some_bind]
                            rw [h6]
                            simp only [Option.some_bind]
                            rw [h7]
                            simp only [Option.some_bind]
                            rw [h8]
                            simp only [Option.some_bind]
                            rw [h9]
                            simp only [Option.some_bind]
                            rw [h10]
                            simp only [Option.some_bind]
                            rw [h11]
                            simp only [Option.some_bind, Option.pure_def]
                            rw [hg, hr])
                          rw [matchTs, takeDigitsN_append 4 X h1]
                          simp only [Option.bind_eq_bind, Option.some_bind]
                          rw [expectChar_append X h2]
                          simp only [Option.some_bind]
                          rw [takeDigitsN_append 2 X h3]
                          simp only [Option.some_bind]
                          rw [expectChar_append X h4]
                          simp only [Option.some_bind]
                          rw [takeDigitsN_append 2 X h5]
                          simp only [Option.some_bind]
                          rw [expectChar_append X h6]
                          simp only [Option.some_bind]
                          rw [takeDigitsN_append 2 X h7]
                          simp only [Option.some_bind]
                          rw [expectChar_append X h8]
                          simp only [Option.some_bind]
                          rw [takeDigitsN_append 2 X h9]
                          simp only [Option.some_bind]
                          rw [expectChar_append X h10]
                          simp only [Option.some_bind]
                          rw [takeDigitsN_append 2 X h11]
                          simp only [Option.some_bind, Option.pure_def,
                            Option.some.injEq, Prod.mk.injEq]
                          exact ⟨hg, by rw [← hr]⟩

theorem string_data_ne {s : String} (h : s ≠ "") : s.data ≠ [] := by
  intro hz
  apply h
  cases s
  simp_all

/-- The serialization `ts ++ " [" ++ level ++ "] " ++ m0` of a good record
header decomposes at the character level. -/
theorem header_data (ts level m0 : String) :
    (ts ++ " [" ++ level ++ "] " ++ m0).data
      = ts.data ++ (' ' :: '[' :: (level.data ++ (']' :: ' ' :: m0.data))) := by
  rw [String.data_append, String.data_append, String.data_append, String.data_append]
  simp [List.append_assoc]

/-- The header pattern matches the serialization of a good record exactly,
recovering the three fields as the three groups. -/
theorem text_log_match_header (ts level m0 : String)
    (hts : tsShape ts) (hlvl : level ≠ "")
    (hlw : ∀ c ∈ level.data, isWordChar c = true)
    (hm0ne : m0 ≠ "") (hm0s : pyStrip m0 = m0) :
    text_log_match (ts ++ " [" ++ level ++ "] " ++ m0) = some ⟨ts, level, m0⟩ := by
  obtain ⟨_, _, happ⟩ := matchTs_parts hts
  have hm1 : matchTs (ts ++ " [" ++ level ++ "] " ++ m0).data
      = some (ts.data, ' ' :: '[' :: (level.data ++ (']' :: ' ' :: m0.data))) := by
    rw [header_data]
    have := happ (' ' :: '[' :: (level.data ++ (']' :: ' ' :: m0.data)))
    rw [List.nil_append] at this
    exact this
  rw [text_log_match, hm1]
  simp only
  -- the optional comma group does not fire on a space
  have hcd : matchCommaDigits (' ' :: '[' :: (level.data ++ (']' :: ' ' :: m0.data)))
      = ' ' :: '[' :: (level.data ++ (']' :: ' ' :: m0.data)) := rfl
  rw [hcd]
  -- first \s+ eats exactly the space before the bracket
  obtain ⟨ht1, hd1⟩ := takeWhile_append_stop isPyWs [' ']
    '[' (level.data ++ (']' :: ' ' :: m0.data))
    (by intro c hc; simp at hc; subst hc; rfl) (by rfl)
  rw [show ([' '] ++ '[' :: (level.data ++ (']' :: ' ' :: m0.data)))
      = ' ' :: '[' :: (level.data ++ (']' :: ' ' :: m0.data)) from rfl] at ht1 hd1
  rw [ht1, hd1]
  rw [if_neg (by simp)]
  rw [show afterBracketOpen ('[' :: (level.data ++ (']' :: ' ' :: m0.data)))
      = level.data ++ (']' :: ' ' :: m0.data) from rfl]
  -- \w+ eats exactly the level
  obtain ⟨ht2, hd2⟩ := takeWhile_append_stop isWordChar level.data
    ']' (' ' :: m0.data) hlw (by rfl)
  rw [ht2, hd2]
  rw [if_neg (string_data_ne hlvl)]
  rw [show afterBracketClose (']' :: ' ' :: m0.data) = ' ' :: m0.data from rfl]
  -- second \s+ eats exactly the space before the message
  obtain ⟨c0, m0', hm0d⟩ : ∃ c0 m0', m0.data = c0 :: m0' := by
    cases hm : m0.data with
    | nil => exact absurd hm (string_data_ne hm0ne)
    | cons a t => exact ⟨a, t, rfl⟩
  have hc0 : isPyWs c0 = false := by
    apply pyStrip_head_not_ws m0 c0 m0'
    rw [hm0s]
    exact hm0d
  obtain ⟨ht3, hd3⟩ := takeWhile_append_stop isPyWs [' '] c0 m0'
    (by intro c hc; simp at hc; subst hc; rfl) hc0
  rw [show ([' '] ++ c0 :: m0') = ' ' :: c0 :: m0' from rfl] at ht3 hd3
  rw [show (' ' :: m0.data) = ' ' :: c0 :: m0' by rw [hm0d]]
  rw [ht3, hd3]
  rw [if_neg (by simp)]
  rw [show (c0 :: m0') = m0.data from hm0d.symm]

/-- `processLine` on a line that fails JSON decoding but matches the header
pattern: finalize the open record and start a new one from the groups. -/
theorem processLine_header (st : ParseState) (rawLine : String) (m : TextMatch)
    (hne : pyStrip rawLine ≠ "")
    (hj : json_loads (pyStrip rawLine) = none)
    (hm : text_log_match (pyStrip rawLine) = some m) :
    processLine st rawLine = .ok ⟨st.structured ++ st.current.toList,
      some ⟨.pystr m.g1, .pystr m.g2, .pystr m.g3⟩⟩ := by
  rw [processLine]
  simp only [if_neg hne, hj, hm, Bind.bind, Except.bind, pure, Except.pure]

/-- `processLine` on a non-blank line matching neither recognizer while a
record with a string message is open: append the stripped line. -/
theorem processLine_cont (structured : List PyRecord) (t l : PyVal) (s : String)
    (rawLine : String) (hne : pyStrip rawLine ≠ "")
    (hj : jsonFallsThrough (pyStrip rawLine))
    (ht : text_log_match (pyStrip rawLine) = none) :
    processLine ⟨structured, some ⟨t, l, .pystr s⟩⟩ rawLine
      = .ok ⟨structured, some ⟨t, l, .pystr (s ++ "\n" ++ pyStrip rawLine)⟩⟩ := by
  rw [processLine]
  rw [jsonFallsThrough] at hj
  cases hjl : json_loads (pyStrip rawLine) with
  | none =>
    simp only [if_neg hne, hjl, ht, Bind.bind, Except.bind, pure, Except.pure]
  | some v =>
    rw [hjl] at hj
    simp only [if_neg hne, hjl, hj, ht, Bind.bind, Except.bind, pure, Except.pure]
    simp

/-- The exponent recognizer finds nothing at a non-`e`/`E` character. -/
theorem parseJExp_stuck (c1 : Char) (rest : List Char)
    (he : c1 ≠ 'e') (hE : c1 ≠ 'E') :
    parseJExp (c1 :: rest) = none := by
  rw [parseJExp.eq_def]
  simp only
  rw [if_neg]
  rintro (h | h)
  · exact he h
  · exact hE h

/-- After a plain integer part, a character that starts neither a fraction
nor an exponent ends the number. -/
theorem parseFracExp_stuck (ipart : List Char) (c1 : Char) (rest : List Char)
    (hdot : c1 ≠ '.') (he : c1 ≠ 'e') (hE : c1 ≠ 'E') :
    parseJFrac [] ipart (c1 :: rest)
      = some (.pyint (Int.ofNat (digitsToNat ipart)), c1 :: rest) := by
  have hstep : parseJFrac [] ipart (c1 :: rest)
      = parseJExpPart [] ipart false (c1 :: rest) := by
    rw [parseJFrac.eq_def]
    split
    · next d rest1 heq =>
      exact absurd (List.cons.inj heq).1 hdot
    · rfl
  rw [hstep, parseJExpPart.eq_def, parseJExp_stuck c1 rest he hE]
  simp

/-- A maximal digit run followed by a dash is not JSON: the number token
ends at the dash and the decoder rejects the line as extra data. -/
theorem json_loads_digits_dash (ds r : List Char) (hne : ds ≠ [])
    (hdig : ∀ c ∈ ds, isDigitChar c = true) :
    json_loads (String.mk (ds ++ '-' :: r)) = none := by
  obtain ⟨d0, ds', hds⟩ : ∃ d0 ds', ds = d0 :: ds' := by
    cases ds with
    | nil => exact absurd rfl hne
    | cons a t => exact ⟨a, t, rfl⟩
  subst hds
  have hd0 : isDigitChar d0 = true := hdig d0 (List.mem_cons_self d0 ds')
  have hcs : (d0 :: ds') ++ '-' :: r = d0 :: (ds' ++ '-' :: r) := rfl
  -- the number body: either "0" then the rest, or the whole digit run
  have hnumint : parseJNum (d0 :: (ds' ++ '-' :: r))
      = parseJNumInt [] (d0 :: (ds' ++ '-' :: r)) := by
    rw [parseJNum.eq_def]
    split
    · next rest heq =>
      have hcontra : d0 = '-' := (List.cons.inj heq).1
      rw [hcontra] at hd0
      exact absurd hd0 (by decide)
    · rfl
  have hnum : parseJNum (d0 :: (ds' ++ '-' :: r))
      = some (.pyint (Int.ofNat (digitsToNat
          (if d0 = '0' then [d0] else (d0 :: ds')))),
        if d0 = '0' then ds' ++ '-' :: r else '-' :: r) := by
    rw [hnumint, parseJNumInt.eq_def]
    simp only
    by_cases h0 : d0 = '0'
    · rw [if_pos h0, if_pos h0, if_pos h0]
      cases hds' : ds' with
      | nil =>
        rw [show (([] : List Char) ++ '-' :: r) = '-' :: r from rfl]
        rw [parseFracExp_stuck [d0] '-' r (by decide) (by decide) (by decide)]
      | cons d1 ds'' =>
        have hd1 : isDigitChar d1 = true := hdig d1 (by rw [hds']; simp)
        rw [show ((d1 :: ds'') ++ '-' :: r) = d1 :: (ds'' ++ '-' :: r) from rfl]
        rw [parseFracExp_stuck [d0] d1 (ds'' ++ '-' :: r)
          (fun h => by rw [h] at hd1; exact absurd hd1 (by decide))
          (fun h => by rw [h] at hd1; exact absurd hd1 (by decide))
          (fun h => by rw [h] at hd1; exact absurd hd1 (by decide))]
    · rw [if_neg h0, if_neg h0, if_neg h0, if_pos hd0]
      obtain ⟨htk, hdk⟩ := takeWhile_append_stop isDigitChar (d0 :: ds') '-' r
        hdig (by decide)
      rw [← hcs, htk, hdk]
      rw [parseFracExp_stuck (d0 :: ds') '-' r (by decide) (by decide) (by decide)]
  -- one step of parseJ in value mode reaches the number branch
  have hstep : ∀ fuel, parseJ (fuel + 1) .value (d0 :: (ds' ++ '-' :: r))
      = parseJNum (d0 :: (ds' ++ '-' :: r)) := by
    intro fuel
    rw [parseJ.eq_def]
    simp only
    rw [dropWhile_eq_self_of_head isJsonWs _
      (fun c hc => by
        rw [show (d0 :: (ds' ++ '-' :: r)).head? = some d0 from rfl] at hc
        rw [← Option.some.inj hc]
        exact digit_not_jsonWs hd0)]
    simp only
    have hq : ∀ x : Char, isDigitChar x = false → ¬(d0 = x) := by
      intro x hx h
      rw [h] at hd0
      rw [hd0] at hx
      exact Bool.noConfusion hx
    rw [if_neg (hq '"' (by decide)), if_neg (hq '{' (by decide)),
      if_neg (hq '[' (by decide)), if_neg (hq 'n' (by decide)),
      if_neg (hq 't' (by decide)), if_neg (hq 'f' (by decide)),
      if_neg (hq 'N' (by decide)), if_neg (hq 'I' (by decide))]
    rw [if_neg (fun hand => hq '-' (by decide) hand.1)]
    rw [if_pos (Or.inr hd0)]
  -- assemble
  rw [json_loads]
  have hdata : (String.mk ((d0 :: ds') ++ '-' :: r)).data
      = d0 :: (ds' ++ '-' :: r) := rfl
  rw [hdata]
  have hfuel : 2 * (d0 :: (ds' ++ '-' :: r)).length + 4
      = (2 * (d0 :: (ds' ++ '-' :: r)).length + 3) + 1 := by omega
  rw [hfuel, hstep, hnum]
  by_cases h0 : d0 = '0'
  · rw [if_pos h0, if_pos h0]
    cases hds' : ds' with
    | nil =>
      simp [show (('-' :: r : List Char)).dropWhile isJsonWs = '-' :: r from rfl]
    | cons d1 ds'' =>
      have hd1 : isDigitChar d1 = true := hdig d1 (by rw [hds']; simp)
      have hdw : (d1 :: (ds'' ++ '-' :: r)).dropWhile isJsonWs
          = d1 :: (ds'' ++ '-' :: r) :=
        dropWhile_eq_self_of_head isJsonWs _ (fun c hc => by
          rw [show (d1 :: (ds'' ++ '-' :: r)).head? = some d1 from rfl] at hc
          rw [← Option.some.inj hc]
          exact digit_not_jsonWs hd1)
      simp [hdw]
  · rw [if_neg h0, if_neg h0]
    simp [show (('-' :: r : List Char)).dropWhile isJsonWs = '-' :: r from rfl]

/-! ## Serialization round-trip: assembling one record and one chunk -/

theorem bool_ne_of_ft {f : Char → Bool} {c x : Char} (hc : f c = true) (hx : f x = false) :
    c ≠ x := by
  intro h
  rw [h, hx] at hc
  exact Bool.noConfusion hc

theorem digit_word {c : Char} (h : isDigitChar c = true) : isWordChar c = true := by
  rw [isWordChar, h]
  simp

/-- Word characters (letters, digits, underscore) are not line separators. -/
theorem wordChar_not_sep {c : Char} (h : isWordChar c = true) : isLineSepChar c = false := by
  rw [isLineSepChar]
  simp only [Bool.or_eq_false_iff, decide_eq_false_iff_not]
  refine ⟨⟨⟨⟨⟨⟨⟨⟨⟨?_, ?_⟩, ?_⟩, ?_⟩, ?_⟩, ?_⟩, ?_⟩, ?_⟩, ?_⟩, ?_⟩ <;>
    exact bool_ne_of_ft h (by decide)

/-- A well-shaped timestamp contains no line separator: its characters are
digits, dashes, colons and one inner space. -/
theorem tsShape_no_sep (s : String) (hts : tsShape s) :
    ∀ c ∈ s.data, isLineSepChar c = false := by
  obtain ⟨-, ⟨d1, d2, d3, d4, d5, d6, hg, -, h1, h2, h3, h4, h5, h6⟩, -⟩ :=
    matchTs_parts (show matchTs s.data = some (s.data, []) from hts)
  intro c hc
  rw [hg] at hc
  simp only [List.mem_append, List.mem_cons] at hc
  rcases hc with h | h | h | h | h | h | h | h | h | h | h
  · exact wordChar_not_sep (digit_word (h1 c h))
  · subst h; decide
  · exact wordChar_not_sep (digit_word (h2 c h))
  · subst h; decide
  · exact wordChar_not_sep (digit_word (h3 c h))
  · subst h; decide
  · exact wordChar_not_sep (digit_word (h4 c h))
  · subst h; decide
  · exact wordChar_not_sep (digit_word (h5 c h))
  · subst h; decide
  · exact wordChar_not_sep (digit_word (h6 c h))

theorem getLast_append_right {α : Type} (l1 l2 : List α) (h : l2 ≠ []) :
    (l1 ++ l2).getLast? = l2.getLast? := by
  rw [← List.head?_reverse, ← List.head?_reverse, List.reverse_append]
  cases hl : l2.reverse with
  | nil =>
    exact absurd (by simpa using congrArg List.reverse hl) h
  | cons a t =>
    simp

/-- The `current_log["message"] += "\n" + line` accumulation, written as a
fold, is the newline join of the accumulated lines. -/
theorem foldl_append_intercalate : ∀ (tail : List String) (s : String),
    tail.foldl (fun acc x => acc ++ "\n" ++ x) s = String.intercalate "\n" (s :: tail) := by
  intro tail
  induction tail with
  | nil => intro s; rfl
  | cons x xs ih =>
    intro s
    simp only [List.foldl_cons]
    rw [ih (s ++ "\n" ++ x)]
    cases hxs : xs with
    | nil => rfl
    | cons y ys =>
      rw [intercalate_cons "\n" (s ++ "\n" ++ x) (y :: ys) (by simp),
        intercalate_cons "\n" s (x :: y :: ys) (by simp),
        intercalate_cons "\n" x (y :: ys) (by simp)]
      simp [String.append_assoc]

/-- `foldlM` over `Except` splits across list append. -/
theorem foldlM_append_except {σ α ε : Type} (f : σ → α → Except ε σ) :
    ∀ (l1 l2 : List α) (b : σ),
      (l1 ++ l2).foldlM f b = (l1.foldlM f b) >>= fun b2 => l2.foldlM f b2 := by
  intro l1
  induction l1 with
  | nil =>
    intro l2 b
    rfl
  | cons a t ih =>
    intro l2 b
    rw [List.cons_append, List.foldlM_cons, List.foldlM_cons]
    cases hf : f b a with
    | error e => simp only [Bind.bind, Except.bind]
    | ok b1 =>
      simp only [Bind.bind, Except.bind]
      exact ih l2 b1

/-- Folding `processLine` over continuation lines while a string-message
record is open appends each line after a newline. -/
theorem fold_cont_lines : ∀ (tail : List String) (S : List PyRecord) (t l : PyVal) (s : String),
    (∀ x ∈ tail, contLineOk x) →
    tail.foldlM processLine ⟨S, some ⟨t, l, .pystr s⟩⟩
      = .ok ⟨S, some ⟨t, l, .pystr (tail.foldl (fun acc x => acc ++ "\n" ++ x) s)⟩⟩ := by
  intro tail
  induction tail with
  | nil => intro S t l s _; rfl
  | cons x xs ih =>
    intro S t l s hall
    have hx := hall x (List.mem_cons_self x xs)
    rw [contLineOk, goodLine] at hx
    obtain ⟨⟨hxne, hxs, -⟩, hxj, hxt⟩ := hx
    have hstep := processLine_cont S t l s x
      (by rw [hxs]; exact hxne) (by rw [hxs]; exact hxj) (by rw [hxs]; exact hxt)
    rw [hxs] at hstep
    rw [List.foldlM_cons, hstep]
    simp only [Bind.bind, Except.bind]
    rw [ih S t l (s ++ "\n" ++ x) (fun y hy => hall y (List.mem_cons_of_mem x hy))]
    simp [List.foldl_cons]

/-- One good record serializes to a non-empty list of good lines whose fold
through `processLine` finalizes any open record and leaves exactly this
record open. -/
theorem parse_one_record (r : LogRecord) (hr : GoodRecord r) :
    ∃ lines : List String, lines ≠ [] ∧
      (∀ l ∈ lines, l ≠ "" ∧ ∀ c ∈ l.data, isLineSepChar c = false) ∧
      formatRecord r = String.intercalate "\n" lines ∧
      ∀ st : ParseState, lines.foldlM processLine st
        = .ok ⟨st.structured ++ st.current.toList, some (toPyRecord r)⟩ := by
  rw [GoodRecord] at hr
  obtain ⟨hts, hlvl, hlw, ls, hlsne, hmsg, hgood, hcont⟩ := hr
  obtain ⟨m0, ls', hls⟩ : ∃ m0 ls', ls = m0 :: ls' := by
    cases ls with
    | nil => exact absurd rfl hlsne
    | cons a t => exact ⟨a, t, rfl⟩
  subst hls
  have hm0g := hgood m0 (List.mem_cons_self m0 ls')
  rw [goodLine] at hm0g
  obtain ⟨hm0ne, hm0s, hm0sep⟩ := hm0g
  obtain ⟨-, ⟨d1, d2, d3, d4, d5, d6, hg, hd1len, h1, h2, h3, h4, h5, h6⟩, -⟩ :=
    matchTs_parts (show matchTs r.timestamp.data = some (r.timestamp.data, []) from hts)
  obtain ⟨c1, d1', hd1⟩ : ∃ c1 d1', d1 = c1 :: d1' := by
    cases hd : d1 with
    | nil => rw [hd] at hd1len; simp at hd1len
    | cons a t => exact ⟨a, t, rfl⟩
  have hc1 : isDigitChar c1 = true := h1 c1 (by rw [hd1]; simp)
  -- the header line is non-empty
  have hheader_ne : (r.timestamp ++ " [" ++ r.level ++ "] " ++ m0) ≠ "" := by
    intro h
    have hz : r.timestamp.data ++ (' ' :: '[' :: (r.level.data ++ (']' :: ' ' :: m0.data)))
        = [] := by
      rw [← header_data r.timestamp r.level m0, h]
    simp at hz
  -- the header line is free of line separators
  have hsep_header : ∀ c ∈ (r.timestamp ++ " [" ++ r.level ++ "] " ++ m0).data,
      isLineSepChar c = false := by
    intro c hc
    rw [header_data] at hc
    simp only [List.mem_append, List.mem_cons] at hc
    rcases hc with h | h | h | h | h | h | h
    · exact tsShape_no_sep r.timestamp hts c h
    · subst h; decide
    · subst h; decide
    · exact wordChar_not_sep (hlw c h)
    · subst h; decide
    · subst h; decide
    · exact hm0sep c h
  -- the header line is strip-invariant
  have hheadchar : (r.timestamp ++ " [" ++ r.level ++ "] " ++ m0).data.head? = some c1 := by
    rw [header_data, hg, hd1]
    rfl
  have hlastchar : (r.timestamp ++ " [" ++ r.level ++ "] " ++ m0).data.getLast?
      = m0.data.getLast? := by
    rw [header_data]
    rw [getLast_append_right _ _ (by simp)]
    rw [show (' ' :: '[' :: (r.level.data ++ (']' :: ' ' :: m0.data)))
        = ([' ', '['] ++ r.level.data ++ ([']', ' '] : List Char)) ++ m0.data by simp]
    exact getLast_append_right _ _ (string_data_ne hm0ne)
  have hstrip : pyStrip (r.timestamp ++ " [" ++ r.level ++ "] " ++ m0)
      = r.timestamp ++ " [" ++ r.level ++ "] " ++ m0 := by
    apply pyStrip_eq_self
    · intro c hc
      rw [hheadchar] at hc
      rw [← Option.some.inj hc]
      exact digit_not_ws hc1
    · intro c hc
      rw [hlastchar] at hc
      apply pyStrip_rev_head_not_ws m0
      rw [hm0s, List.head?_reverse]
      exact hc
  -- the header line fails JSON decoding (maximal digit run then a dash)
  have hjson : json_loads (r.timestamp ++ " [" ++ r.level ++ "] " ++ m0) = none := by
    have hdata2 : (r.timestamp ++ " [" ++ r.level ++ "] " ++ m0).data
        = d1 ++ '-' :: ((d2 ++ '-' :: (d3 ++ ' ' :: (d4 ++ ':' :: (d5 ++ ':' :: d6))))
          ++ (' ' :: '[' :: (r.level.data ++ (']' :: ' ' :: m0.data)))) := by
      rw [header_data, hg]
      simp [List.append_assoc]
    have heta : (r.timestamp ++ " [" ++ r.level ++ "] " ++ m0)
        = String.mk (d1 ++ '-' :: ((d2 ++ '-' :: (d3 ++ ' ' :: (d4 ++ ':' :: (d5 ++ ':' :: d6))))
          ++ (' ' :: '[' :: (r.level.data ++ (']' :: ' ' :: m0.data))))) := by
      rw [← hdata2]
    rw [heta]
    exact json_loads_digits_dash d1 _ (by rw [hd1]; simp) h1
  -- joining the lines back gives the record serialization
  have hfmt : formatRecord r = String.intercalate "\n"
      ((r.timestamp ++ " [" ++ r.level ++ "] " ++ m0) :: ls') := by
    rw [formatRecord, hmsg]
    cases hls' : ls' with
    | nil => rfl
    | cons y ys =>
      rw [intercalate_cons "\n" m0 (y :: ys) (by simp),
        intercalate_cons "\n" (r.timestamp ++ " [" ++ r.level ++ "] " ++ m0) (y :: ys) (by simp)]
      simp [String.append_assoc]
  -- the fold through the parser loop
  have hfold : ∀ st : ParseState,
      ((r.timestamp ++ " [" ++ r.level ++ "] " ++ m0) :: ls').foldlM processLine st
        = .ok ⟨st.structured ++ st.current.toList, some (toPyRecord r)⟩ := by
    intro st
    have hne' : pyStrip (r.timestamp ++ " [" ++ r.level ++ "] " ++ m0) ≠ "" := by
      rw [hstrip]; exact hheader_ne
    have hj' : json_loads (pyStrip (r.timestamp ++ " [" ++ r.level ++ "] " ++ m0)) = none := by
      rw [hstrip]; exact hjson
    have hm' : text_log_match (pyStrip (r.timestamp ++ " [" ++ r.level ++ "] " ++ m0))
        = some ⟨r.timestamp, r.level, m0⟩ := by
      rw [hstrip]
      exact text_log_match_header r.timestamp r.level m0 hts hlvl hlw hm0ne hm0s
    have hstep : processLine st (r.timestamp ++ " [" ++ r.level ++ "] " ++ m0)
        = .ok ⟨st.structured ++ st.current.toList,
          some ⟨.pystr r.timestamp, .pystr r.level, .pystr m0⟩⟩ :=
      processLine_header st _ ⟨r.timestamp, r.level, m0⟩ hne' hj' hm'
    rw [List.foldlM_cons, hstep]
    simp only [Bind.bind, Except.bind]
    rw [fold_cont_lines ls' (st.structured ++ st.current.toList)
      (.pystr r.timestamp) (.pystr r.level) m0 (fun y hy => hcont y hy)]
    rw [foldl_append_intercalate ls' m0, ← hmsg]
    rfl
  refine ⟨(r.timestamp ++ " [" ++ r.level ++ "] " ++ m0) :: ls', by simp, ?_, hfmt, hfold⟩
  intro l hl
  rcases List.mem_cons.mp hl with h | h
  · subst h
    exact ⟨hheader_ne, hsep_header⟩
  · have hlg := hgood l (List.mem_cons_of_mem m0 h)
    rw [goodLine] at hlg
    exact ⟨hlg.1, hlg.2.2⟩

/-- A whole chunk of good records serializes to good lines whose fold
through `processLine` outputs all records but the last, leaving the last
one open. -/
theorem parse_chunk : ∀ (T : List LogRecord), (∀ r ∈ T, GoodRecord r) → T ≠ [] →
    ∃ (lines : List String) (init : List PyRecord) (lastR : PyRecord),
      lines ≠ [] ∧
      (∀ l ∈ lines, l ≠ "" ∧ ∀ c ∈ l.data, isLineSepChar c = false) ∧
      chunkText T = String.intercalate "\n" lines ∧
      T.map toPyRecord = init ++ [lastR] ∧
      ∀ st : ParseState, lines.foldlM processLine st
        = .ok ⟨st.structured ++ st.current.toList ++ init, some lastR⟩ := by
  intro T
  induction T with
  | nil => intro _ h; exact absurd rfl h
  | cons r T' ih =>
    intro hall _
    obtain ⟨lr, hlrne, hlrgood, hlrfmt, hlrfold⟩ :=
      parse_one_record r (hall r (List.mem_cons_self r T'))
    cases hT' : T' with
    | nil =>
      refine ⟨lr, [], toPyRecord r, hlrne, hlrgood, ?_, by simp, ?_⟩
      · exact hlrfmt
      · intro st
        rw [hlrfold st]
        simp
    | cons y ys =>
      have hT'ne : T' ≠ [] := by rw [hT']; simp
      obtain ⟨lt, it, lastR, hltne, hltgood, hltfmt, hltmap, hltfold⟩ :=
        ih (fun x hx => hall x (List.mem_cons_of_mem r hx)) hT'ne
      rw [hT'] at hltfmt hltmap
      refine ⟨lr ++ lt, toPyRecord r :: it, lastR, ?_, ?_, ?_, ?_, ?_⟩
      · cases lr with
        | nil => exact absurd rfl hlrne
        | cons a t => simp
      · intro l hl
        rcases List.mem_append.mp hl with h | h
        · exact hlrgood l h
        · exact hltgood l h
      · have hmapne : (y :: ys).map formatRecord ≠ [] := by simp
        have hstep : chunkText (r :: y :: ys)
            = formatRecord r ++ "\n" ++ chunkText (y :: ys) := by
          rw [chunkText, chunkText, List.map_cons,
            intercalate_cons "\n" (formatRecord r) ((y :: ys).map formatRecord) hmapne]
        rw [hstep, hlrfmt, hltfmt, intercalate_append_ne "\n" lr lt hlrne hltne]
      · rw [List.map_cons, hltmap]
        rfl
      · intro st
        rw [foldlM_append_except processLine lr lt st, hlrfold st]
        simp only [Bind.bind, Except.bind]
        rw [hltfold ⟨st.structured ++ st.current.toList, some (toPyRecord r)⟩]
        simp [List.append_assoc]

/-! ## Claim theorems: chunking -/

/-- The partition facts about the batcher, shared by several claims:
success, chunk count, per-chunk contents, and flattening. -/
theorem chunk_partition_core (R : List LogRecord) (chunk_size : Int) (h : 0 < chunk_size) :
    ∃ cs, chunk_structured_logs R chunk_size = .ok cs ∧
      cs.length = (R.length + chunk_size.toNat - 1) / chunk_size.toNat ∧
      (∀ i, (hi : i < cs.length) →
        cs.get ⟨i, hi⟩ = chunkText ((R.drop (i * chunk_size.toNat)).take chunk_size.toNat)) ∧
      (chunkSlices chunk_size.toNat R).flatten = R ∧
      (R = [] → cs = []) := by
  have hnz : ¬(chunk_size = 0) := by omega
  have hneg : ¬(chunk_size < 0) := by omega
  have hszpos : 0 < chunk_size.toNat := by omega
  refine ⟨(chunkSlices chunk_size.toNat R).map chunkText, ?_, ?_, ?_, ?_, ?_⟩
  · rw [chunk_structured_logs, if_neg hnz, if_neg hneg]
  · rw [List.length_map]
    exact chunkSlicesGo_length _ hszpos _ R (by omega)
  · intro i hi
    have hi2 : i < (chunkSlices chunk_size.toNat R).length := by
      rw [← List.length_map (f := chunkText)]
      exact hi
    have hg := chunkSlicesGo_get _ hszpos _ R i hi2
    rw [List.get_eq_getElem] at hg
    rw [List.get_eq_getElem, List.getElem_map]
    exact congrArg chunkText hg
  · exact chunkSlicesGo_flatten _ hszpos _ R (by omega)
  · intro hR
    subst hR
    rfl

/-- C3: for every record list `R` and positive `chunk_size`,
`chunk_structured_logs R chunk_size` succeeds with exactly
`ceil(len(R)/chunk_size)` chunks; the `i`-th chunk serializes precisely the
records at positions `[i*chunk_size, min((i+1)*chunk_size, len(R)))`; the
groups concatenate back to `R` (every record in exactly one group, group
order matching record order); and the empty list yields the empty
sequence. -/
theorem chunk_partition (R : List LogRecord) (chunk_size : Int) (h : 0 < chunk_size) :
    ∃ cs, chunk_structured_logs R chunk_size = .ok cs ∧
      cs.length = (R.length + chunk_size.toNat - 1) / chunk_size.toNat ∧
      (∀ i, (hi : i < cs.length) →
        cs.get ⟨i, hi⟩ = chunkText ((R.drop (i * chunk_size.toNat)).take chunk_size.toNat)) ∧
      (chunkSlices chunk_size.toNat R).flatten = R ∧
      (R = [] → cs = []) :=
  chunk_partition_core R chunk_size h

/-- C3 witness: the partition property instantiated at three records and
chunk size 2. -/
theorem chunk_partition_witness :
    0 < (2 : Int) ∧
    (∃ cs, chunk_structured_logs
        [⟨"a", "B", "c"⟩, ⟨"d", "E", "f"⟩, ⟨"g", "H", "i"⟩] 2 = .ok cs ∧
      cs.length = (([⟨"a", "B", "c"⟩, ⟨"d", "E", "f"⟩,
          (⟨"g", "H", "i"⟩ : LogRecord)] : List LogRecord).length + (2 : Int).toNat - 1)
          / (2 : Int).toNat ∧
      (∀ i, (hi : i < cs.length) →
        cs.get ⟨i, hi⟩ = chunkText ((([⟨"a", "B", "c"⟩, ⟨"d", "E", "f"⟩,
          ⟨"g", "H", "i"⟩] : List LogRecord).drop (i * (2 : Int).toNat)).take (2 : Int).toNat)) ∧
      (chunkSlices (2 : Int).toNat
        [⟨"a", "B", "c"⟩, ⟨"d", "E", "f"⟩, ⟨"g", "H", "i"⟩]).flatten
        = [⟨"a", "B", "c"⟩, ⟨"d", "E", "f"⟩, ⟨"g", "H", "i"⟩] ∧
      (([⟨"a", "B", "c"⟩, ⟨"d", "E", "f"⟩,
          (⟨"g", "H", "i"⟩ : LogRecord)] : List LogRecord) = [] → cs = [])) :=
  ⟨by decide, chunk_partition [⟨"a", "B", "c"⟩, ⟨"d", "E", "f"⟩, ⟨"g", "H", "i"⟩] 2 (by decide)⟩

/-- C5: for every record list and positive `chunk_size`, each chunk text is
exactly the records of its group formatted as
`"\x7btimestamp\x7d [\x7blevel\x7d] \x7bmessage\x7d"` and joined by single
newlines. -/
theorem chunk_format (R : List LogRecord) (chunk_size : Int) (h : 0 < chunk_size) :
    ∃ cs, chunk_structured_logs R chunk_size = .ok cs ∧
      ∀ i, (hi : i < cs.length) →
        cs.get ⟨i, hi⟩ = String.intercalate "\n"
          (((R.drop (i * chunk_size.toNat)).take chunk_size.toNat).map
            (fun r => r.timestamp ++ " [" ++ r.level ++ "] " ++ r.message)) := by
  obtain ⟨cs, hok, _, hget, _, _⟩ := chunk_partition_core R chunk_size h
  exact ⟨cs, hok, fun i hi => hget i hi⟩

/-- C5 witness: the per-chunk serialization format instantiated at two
records and chunk size 1. -/
theorem chunk_format_witness :
    0 < (1 : Int) ∧
    (∃ cs, chunk_structured_logs [⟨"t1", "INFO", "m1"⟩, ⟨"t2", "WARN", "m2"⟩] 1 = .ok cs ∧
      ∀ i, (hi : i < cs.length) →
        cs.get ⟨i, hi⟩ = String.intercalate "\n"
          (List.map (fun r => r.timestamp ++ " [" ++ r.level ++ "] " ++ r.message)
            (List.take (1 : Int).toNat
              (List.drop (i * (1 : Int).toNat)
                ([⟨"t1", "INFO", "m1"⟩, ⟨"t2", "WARN", "m2"⟩] : List LogRecord))))) :=
  ⟨by decide, chunk_format [⟨"t1", "INFO", "m1"⟩, ⟨"t2", "WARN", "m2"⟩] 1 (by decide)⟩

/-- C10: for every record list and strictly negative `chunk_size`,
`chunk_structured_logs` returns the empty list without raising
(`range(0, len(logs), negative)` is empty), silently discarding the
records. -/
theorem chunk_negative_silent (logs : List LogRecord) (chunk_size : Int)
    (h : chunk_size < 0) : chunk_structured_logs logs chunk_size = .ok [] := by
  have hnz : ¬(chunk_size = 0) := by omega
  rw [chunk_structured_logs, if_neg hnz, if_pos h]

/-- C10 witness: negative chunk size on a non-empty record list. -/
theorem chunk_negative_silent_witness :
    (-2 : Int) < 0 ∧ chunk_structured_logs [⟨"t", "INFO", "m"⟩] (-2) = .ok [] :=
  ⟨by decide, chunk_negative_silent [⟨"t", "INFO", "m"⟩] (-2) (by decide)⟩

/-- C4 counterexample: at `chunk_size = -1` with a non-empty record list the
batcher does not reject the call: it returns `ok []`, silently discarding
the record, contradicting the claim for `chunk_size ≤ 0` (it only errors at
`chunk_size = 0`). -/
theorem chunk_negative_not_rejected :
    chunk_structured_logs [⟨"", "UNKNOWN", "x"⟩] (-1) = .ok [] ∧
    ∀ e : PyErr, chunk_structured_logs [⟨"", "UNKNOWN", "x"⟩] (-1) ≠ .error e := by
  refine ⟨rfl, ?_⟩
  intro e hx
  rw [show chunk_structured_logs [⟨"", "UNKNOWN", "x"⟩] (-1) = .ok [] from rfl] at hx
  exact Except.noConfusion hx

/-- C4 amended: only `chunk_size = 0` is rejected — `range` raises
`ValueError` (step must not be zero) before any chunk is produced, so no
partial output is returned; negative sizes fall into the silent-empty case
of C10. -/
theorem chunk_zero_rejected (logs : List LogRecord) :
    chunk_structured_logs logs 0 = .error .valueError := rfl

/-! ## Claim theorems: parser, concrete cases -/

/-- C1: evaluation at the failing input.  The single line `42` decodes as
the JSON scalar `42`, and the membership test
`all(k in parsed for k in (...))` raises `TypeError` (`argument of type
'int' is not iterable`), which `structure_logs` does not catch — the code
can raise on malformed input, contradicting the never-raises policy. -/
theorem structure_logs_raises_on_scalar_json : structure_logs "42" = .error .typeError := rfl

/-- C2 counterexample: on the four-line input of concrete case A the second
record's message is `"Connection failed\nTraceback...\nat line 5"` — the
continuation line `"    at line 5"` is stored stripped, not verbatim,
because `structure_logs` strips each line before classification AND storage
(src/utils.py line 15), so the claimed message with preserved leading
whitespace differs from the actual one. -/
theorem caseA_continuation_stripped :
    structure_logs "2024-01-01 10:00:00 [INFO] Service started\n2024-01-01 10:00:01 [ERROR] Connection failed\nTraceback...\n    at line 5"
      = .ok [⟨.pystr "2024-01-01 10:00:00", .pystr "INFO", .pystr "Service started"⟩,
             ⟨.pystr "2024-01-01 10:00:01", .pystr "ERROR",
              .pystr "Connection failed\nTraceback...\nat line 5"⟩] ∧
    ("Connection failed\nTraceback...\nat line 5" : String)
      ≠ "Connection failed\nTraceback...\n    at line 5" := by
  exact ⟨rfl, by decide⟩

/-! ## The JSON branch -/

theorem allThreeKeys_dict (es : List (String × PyVal)) :
    allThreeKeys (.pydict es)
      = .ok ((es.any (fun e => e.1 = "timestamp")) &&
             (es.any (fun e => e.1 = "level")) &&
             (es.any (fun e => e.1 = "message"))) := by
  cases h1 : es.any (fun e => e.1 = "timestamp") <;>
    cases h2 : es.any (fun e => e.1 = "level") <;>
      cases h3 : es.any (fun e => e.1 = "message") <;>
        simp [allThreeKeys, pyContains, h1, h2, h3, Bind.bind, Except.bind, pure, Except.pure]

theorem dict_subscript_of_any (es : List (String × PyVal)) (k : String)
    (h : es.any (fun e => e.1 = k) = true) :
    ∃ v, pySubscript (.pydict es) k = .ok v := by
  cases hl : (es.filter (fun e => e.1 = k)).getLast? with
  | some e => exact ⟨e.2, by simp [pySubscript, hl]⟩
  | none =>
    exfalso
    rw [List.any_eq_true] at h
    obtain ⟨e, he, hek⟩ := h
    have hmem : e ∈ es.filter (fun e => e.1 = k) := List.mem_filter.mpr ⟨he, hek⟩
    cases hfe : es.filter (fun e => e.1 = k) with
    | nil => rw [hfe] at hmem; exact absurd hmem (List.not_mem_nil e)
    | cons a t => rw [hfe] at hl; simp [List.getLast?_eq_none_iff] at hl

/-- C2 amended: case A produces exactly 2 records, the first as claimed,
and the second with message `"Connection failed\nTraceback...\nat line 5"`
— continuation lines are appended after stripping leading and trailing
whitespace (the strip happens once, before classification, and the stripped
line is what is stored). -/
theorem caseA_records :
    structure_logs "2024-01-01 10:00:00 [INFO] Service started\n2024-01-01 10:00:01 [ERROR] Connection failed\nTraceback...\n    at line 5"
      = .ok [⟨.pystr "2024-01-01 10:00:00", .pystr "INFO", .pystr "Service started"⟩,
             ⟨.pystr "2024-01-01 10:00:01", .pystr "ERROR",
              .pystr "Connection failed\nTraceback...\nat line 5"⟩] := rfl

/-- C7 counterexample: a JSON record line whose `message` value is the
number `1`, followed by the plain line `boom`.  The claim promises that the
subsequent non-matching line is appended as a continuation of the
JSON-derived record; instead `current_log["message"] += "\n" + line`
raises `TypeError` (int + str), so no record list is returned at all. -/
theorem json_nonstr_message_continuation_raises :
    structure_logs "\x7b\"timestamp\":\"a\",\"level\":\"b\",\"message\":1\x7d\nboom"
      = .error .typeError ∧
    ∀ recs, structure_logs "\x7b\"timestamp\":\"a\",\"level\":\"b\",\"message\":1\x7d\nboom"
      ≠ .ok recs := by
  refine ⟨rfl, ?_⟩
  intro recs hx
  rw [show structure_logs "\x7b\"timestamp\":\"a\",\"level\":\"b\",\"message\":1\x7d\nboom"
      = .error .typeError from rfl] at hx
  exact Except.noConfusion hx

/-- C7 amended: (1) a trimmed line decoding as a JSON object with the three
keys finalizes any in-progress record into the output and becomes the new
open record built from those three values (extra keys ignored, later
duplicates winning); (2) a subsequent non-blank line matching neither
recognizer is appended as a string continuation of this JSON-derived
record when its `message` value is a string; (3) when the `message` value
is a list, the line is not appended as text: `list += str` extends the
list with the characters of `"\n" + line`; (4) for any other non-string
`message` value (here: a number) the append raises `TypeError`; (5)
concrete case B: the single JSON line yields exactly one record with the
three fields verbatim. -/
theorem json_line_behavior :
    (∀ (st : ParseState) (rawLine : String) (es : List (String × PyVal)),
      pyStrip rawLine ≠ "" →
      json_loads (pyStrip rawLine) = some (.pydict es) →
      allThreeKeys (.pydict es) = .ok true →
      ∃ t l m, pySubscript (.pydict es) "timestamp" = .ok t ∧
        pySubscript (.pydict es) "level" = .ok l ∧
        pySubscript (.pydict es) "message" = .ok m ∧
        processLine st rawLine = .ok ⟨st.structured ++ st.current.toList, some ⟨t, l, m⟩⟩) ∧
    (∀ (structured : List PyRecord) (t l : PyVal) (s : String) (rawLine : String),
      pyStrip rawLine ≠ "" →
      jsonFallsThrough (pyStrip rawLine) →
      text_log_match (pyStrip rawLine) = none →
      processLine ⟨structured, some ⟨t, l, .pystr s⟩⟩ rawLine
        = .ok ⟨structured, some ⟨t, l, .pystr (s ++ "\n" ++ pyStrip rawLine)⟩⟩) ∧
    (∀ (structured : List PyRecord) (t l : PyVal) (xs : List PyVal) (rawLine : String),
      pyStrip rawLine ≠ "" →
      jsonFallsThrough (pyStrip rawLine) →
      text_log_match (pyStrip rawLine) = none →
      processLine ⟨structured, some ⟨t, l, .pylist xs⟩⟩ rawLine
        = .ok ⟨structured, some ⟨t, l,
            .pylist (pyListExtendStr xs ("\n" ++ pyStrip rawLine))⟩⟩) ∧
    (∀ (structured : List PyRecord) (t l : PyVal) (n : Int) (rawLine : String),
      pyStrip rawLine ≠ "" →
      jsonFallsThrough (pyStrip rawLine) →
      text_log_match (pyStrip rawLine) = none →
      processLine ⟨structured, some ⟨t, l, .pyint n⟩⟩ rawLine = .error .typeError) ∧
    structure_logs "\x7b\"timestamp\":\"2024-01-01T00:00:00\",\"level\":\"DEBUG\",\"message\":\"ping\"\x7d"
      = .ok [⟨.pystr "2024-01-01T00:00:00", .pystr "DEBUG", .pystr "ping"⟩] := by
  refine ⟨?_, ?_, ?_, ?_, rfl⟩
  · intro st rawLine es hne hj hk
    rw [allThreeKeys_dict] at hk
    have hks := Except.ok.inj hk
    have h1 : es.any (fun e => e.1 = "timestamp") = true := by
      cases hh : es.any (fun e => e.1 = "timestamp") <;> simp [hh] at hks ⊢
    have h2 : es.any (fun e => e.1 = "level") = true := by
      cases hh : es.any (fun e => e.1 = "level") <;> simp [hh] at hks ⊢
    have h3 : es.any (fun e => e.1 = "message") = true := by
      cases hh : es.any (fun e => e.1 = "message") <;> simp [hh] at hks ⊢
    obtain ⟨tv, htv⟩ := dict_subscript_of_any es "timestamp" h1
    obtain ⟨lv, hlv⟩ := dict_subscript_of_any es "level" h2
    obtain ⟨mv, hmv⟩ := dict_subscript_of_any es "message" h3
    refine ⟨tv, lv, mv, htv, hlv, hmv, ?_⟩
    rw [processLine]
    simp only [if_neg hne, hj, allThreeKeys_dict, h1, h2, h3, Bool.and_self,
      Bind.bind, Except.bind, htv, hlv, hmv, pure, Except.pure]
    simp
  · intro structured t l s rawLine hne hj ht
    rw [processLine]
    rw [jsonFallsThrough] at hj
    cases hjl : json_loads (pyStrip rawLine) with
    | none =>
      simp only [if_neg hne, hjl, ht, Bind.bind, Except.bind, pure, Except.pure]
    | some v =>
      rw [hjl] at hj
      simp only [if_neg hne, hjl, hj, ht, Bind.bind, Except.bind, pure, Except.pure]
      simp
  · intro structured t l xs rawLine hne hj ht
    rw [processLine]
    rw [jsonFallsThrough] at hj
    cases hjl : json_loads (pyStrip rawLine) with
    | none =>
      simp only [if_neg hne, hjl, ht, Bind.bind, Except.bind, pure, Except.pure]
    | some v =>
      rw [hjl] at hj
      simp only [if_neg hne, hjl, hj, ht, Bind.bind, Except.bind, pure, Except.pure]
      simp
  · intro structured t l n rawLine hne hj ht
    rw [processLine]
    rw [jsonFallsThrough] at hj
    cases hjl : json_loads (pyStrip rawLine) with
    | none =>
      simp only [if_neg hne, hjl, ht, Bind.bind, Except.bind, pure, Except.pure,
        throw, throwThe, MonadExceptOf.throw]
    | some v =>
      rw [hjl] at hj
      simp only [if_neg hne, hjl, hj, ht, Bind.bind, Except.bind, pure, Except.pure,
        throw, throwThe, MonadExceptOf.throw]
      simp

/-- C7 witness: the JSON-line behavior applied to a concrete open record,
a concrete JSON line with an extra key and a duplicate, a concrete
continuation line against a string, a list and a number message, and
concrete case B. -/
theorem json_line_behavior_witness :
    (∃ t l m,
      pySubscript (.pydict [("timestamp", .pystr "T"), ("level", .pystr "L"),
        ("message", .pystr "M1"), ("extra", .pyint 7), ("message", .pystr "M2")]) "timestamp"
        = .ok t ∧
      pySubscript (.pydict [("timestamp", .pystr "T"), ("level", .pystr "L"),
        ("message", .pystr "M1"), ("extra", .pyint 7), ("message", .pystr "M2")]) "level"
        = .ok l ∧
      pySubscript (.pydict [("timestamp", .pystr "T"), ("level", .pystr "L"),
        ("message", .pystr "M1"), ("extra", .pyint 7), ("message", .pystr "M2")]) "message"
        = .ok m ∧
      processLine ⟨[], some ⟨.pystr "t0", .pystr "L0", .pystr "m0"⟩⟩
          " \x7b\"timestamp\":\"T\",\"level\":\"L\",\"message\":\"M1\",\"extra\":7,\"message\":\"M2\"\x7d "
        = .ok ⟨[] ++ (some (⟨.pystr "t0", .pystr "L0", .pystr "m0"⟩ : PyRecord)).toList,
               some ⟨t, l, m⟩⟩) ∧
    processLine ⟨[⟨.pystr "a", .pystr "b", .pystr "c"⟩], some ⟨.pystr "T", .pystr "L", .pystr "M2"⟩⟩
        "  tail of trace  "
      = .ok ⟨[⟨.pystr "a", .pystr "b", .pystr "c"⟩],
             some ⟨.pystr "T", .pystr "L", .pystr ("M2" ++ "\n" ++ pyStrip "  tail of trace  ")⟩⟩ ∧
    processLine ⟨[], some ⟨.pystr "T", .pystr "L", .pylist [.pystr "x"]⟩⟩ "  tail of trace  "
      = .ok ⟨[], some ⟨.pystr "T", .pystr "L",
          .pylist (pyListExtendStr [.pystr "x"] ("\n" ++ pyStrip "  tail of trace  "))⟩⟩ ∧
    processLine ⟨[], some ⟨.pystr "T", .pystr "L", .pyint 1⟩⟩ "  tail of trace  "
      = .error .typeError ∧
    structure_logs "\x7b\"timestamp\":\"2024-01-01T00:00:00\",\"level\":\"DEBUG\",\"message\":\"ping\"\x7d"
      = .ok [⟨.pystr "2024-01-01T00:00:00", .pystr "DEBUG", .pystr "ping"⟩] :=
  ⟨json_line_behavior.1 ⟨[], some ⟨.pystr "t0", .pystr "L0", .pystr "m0"⟩⟩
      " \x7b\"timestamp\":\"T\",\"level\":\"L\",\"message\":\"M1\",\"extra\":7,\"message\":\"M2\"\x7d "
      [("timestamp", .pystr "T"), ("level", .pystr "L"), ("message", .pystr "M1"),
       ("extra", .pyint 7), ("message", .pystr "M2")]
      (by decide) rfl rfl,
   json_line_behavior.2.1 [⟨.pystr "a", .pystr "b", .pystr "c"⟩]
      (.pystr "T") (.pystr "L") "M2" "  tail of trace  " (by decide)
      (by rw [jsonFallsThrough]; exact trivial) rfl,
   json_line_behavior.2.2.1 []
      (.pystr "T") (.pystr "L") [.pystr "x"] "  tail of trace  " (by decide)
      (by rw [jsonFallsThrough]; exact trivial) rfl,
   json_line_behavior.2.2.2.1 []
      (.pystr "T") (.pystr "L") 1 "  tail of trace  " (by decide)
      (by rw [jsonFallsThrough]; exact trivial) rfl,
   json_line_behavior.2.2.2.2⟩

/-- C6 counterexample: a single JSON record line with `"message": ""` is
finalized (at end of input) and appended to the output with an empty
message — the code checks only the truthiness of the record dict, never
the message, before emitting. -/
theorem json_empty_message_emitted :
    structure_logs "\x7b\"timestamp\":\"t\",\"level\":\"L\",\"message\":\"\"\x7d"
      = .ok [⟨.pystr "t", .pystr "L", .pystr ""⟩] ∧
    ¬∃ s, PyVal.pystr "" = PyVal.pystr s ∧ s ≠ "" := by
  refine ⟨rfl, ?_⟩
  rintro ⟨s, hs, hne⟩
  exact hne ((PyVal.pystr.inj hs)).symm

/-- C6 amended: every record finalized by `structure_logs` either came from
the JSON branch — which copies the `message` value verbatim, so it may be
empty (or even a non-string) — or carries a non-empty string message; in
particular a record built only from continuation/orphan lines always holds
at least one non-empty line, and a header-born record's captured message
group is never empty on a stripped line. -/
theorem finalized_message_nonempty (raw : String) (trecs : List TRecord)
    (h : structure_logs_tagged raw = .ok trecs) :
    structure_logs raw = .ok (trecs.map eraseT) ∧
    ∀ tr ∈ trecs, tr.fromJson = false →
      ∃ s, tr.record.message = .pystr s ∧ s ≠ "" := by
  constructor
  · rw [structure_logs_eq_tagged, h]
    rfl
  · rw [structure_logs_tagged] at h
    cases hf : (enumLines 0 (pySplitlines raw)).foldlM processLineT ⟨[], none⟩ with
    | error e =>
      rw [hf] at h
      simp [Bind.bind, Except.bind] at h
    | ok st =>
      rw [hf] at h
      simp only [Bind.bind, Except.bind, pure, Except.pure] at h
      have htr : trecs = st.structured ++ st.current.toList := (Except.ok.inj h).symm
      have hinv0 : MsgInv ⟨[], none⟩ := by
        intro tr htr'
        simp [Option.toList] at htr'
      have hinv := fold_msg _ _ _ hinv0 hf
      rw [htr]
      exact hinv

/-- C6 witness: the invariant applied to an input holding a JSON record
with an empty message (JSON-born, so exempt) followed by a header record. -/
theorem finalized_message_nonempty_witness :
    structure_logs "\x7b\"timestamp\":\"t\",\"level\":\"L\",\"message\":\"\"\x7d\n2024-01-01 10:00:00 [INFO] hi"
      = .ok ([⟨⟨.pystr "t", .pystr "L", .pystr ""⟩, true, 0⟩,
              ⟨⟨.pystr "2024-01-01 10:00:00", .pystr "INFO", .pystr "hi"⟩, false, 1⟩].map eraseT) ∧
    ∀ tr ∈ ([⟨⟨.pystr "t", .pystr "L", .pystr ""⟩, true, 0⟩,
             ⟨⟨.pystr "2024-01-01 10:00:00", .pystr "INFO", .pystr "hi"⟩, false, 1⟩]
        : List TRecord), tr.fromJson = false →
      ∃ s, tr.record.message = .pystr s ∧ s ≠ "" :=
  finalized_message_nonempty
    "\x7b\"timestamp\":\"t\",\"level\":\"L\",\"message\":\"\"\x7d\n2024-01-01 10:00:00 [INFO] hi"
    [⟨⟨.pystr "t", .pystr "L", .pystr ""⟩, true, 0⟩,
     ⟨⟨.pystr "2024-01-01 10:00:00", .pystr "INFO", .pystr "hi"⟩, false, 1⟩] rfl

/-- C8: records are emitted in the order of their first input lines — the
tagged parser erases to `structure_logs` and its first-line tags come out
strictly increasing (no reordering, no deduplication) — and chunk groups
concatenate back to the record list in order, so chunk order matches record
order. -/
theorem records_in_input_order (raw : String) (trecs : List TRecord)
    (h : structure_logs_tagged raw = .ok trecs) :
    structure_logs raw = .ok (trecs.map eraseT) ∧
    List.Chain' (· < ·) (trecs.map (·.firstLine)) ∧
    ∀ (L : List LogRecord) (sz : Int), 0 < sz →
      (chunkSlices sz.toNat L).flatten = L := by
  refine ⟨?_, ?_, ?_⟩
  · rw [structure_logs_eq_tagged, h]
    rfl
  · rw [structure_logs_tagged] at h
    cases hf : (enumLines 0 (pySplitlines raw)).foldlM processLineT ⟨[], none⟩ with
    | error e =>
      rw [hf] at h
      simp [Bind.bind, Except.bind] at h
    | ok st =>
      rw [hf] at h
      simp only [Bind.bind, Except.bind, pure, Except.pure] at h
      have htr : trecs = st.structured ++ st.current.toList := (Except.ok.inj h).symm
      have hinit1 : List.Chain' (· < ·) (tagsOf ⟨[], none⟩) := by
        simp [tagsOf]
      have hinit2 : ∀ t ∈ tagsOf (⟨[], none⟩ : TState), t < 0 := by
        intro t ht
        simp [tagsOf, Option.toList] at ht
      obtain ⟨hchain, _⟩ := fold_tags (pySplitlines raw) 0 ⟨[], none⟩ st hinit1 hinit2 hf
      rw [htr]
      exact hchain
  · intro L sz hsz
    exact chunkSlicesGo_flatten _ (by omega) _ L (by omega)

/-- C8 witness: the ordering property applied to a four-line input mixing
an orphan line, a header record with a continuation, and a JSON record. -/
theorem records_in_input_order_witness :
    structure_logs "orphan\n2024-01-01 10:00:00 [INFO] alpha\ncont\n\x7b\"timestamp\":\"T\",\"level\":\"L\",\"message\":\"J\"\x7d"
      = .ok (([⟨⟨.pystr "", .pystr "UNKNOWN", .pystr "orphan"⟩, false, 0⟩,
               ⟨⟨.pystr "2024-01-01 10:00:00", .pystr "INFO", .pystr "alpha\ncont"⟩, false, 1⟩,
               ⟨⟨.pystr "T", .pystr "L", .pystr "J"⟩, true, 3⟩] : List TRecord).map eraseT) ∧
    List.Chain' (· < ·)
      (([⟨⟨.pystr "", .pystr "UNKNOWN", .pystr "orphan"⟩, false, 0⟩,
         ⟨⟨.pystr "2024-01-01 10:00:00", .pystr "INFO", .pystr "alpha\ncont"⟩, false, 1⟩,
         ⟨⟨.pystr "T", .pystr "L", .pystr "J"⟩, true, 3⟩] : List TRecord).map (·.firstLine)) ∧
    ∀ (L : List LogRecord) (sz : Int), 0 < sz →
      (chunkSlices sz.toNat L).flatten = L :=
  records_in_input_order
    "orphan\n2024-01-01 10:00:00 [INFO] alpha\ncont\n\x7b\"timestamp\":\"T\",\"level\":\"L\",\"message\":\"J\"\x7d"
    [⟨⟨.pystr "", .pystr "UNKNOWN", .pystr "orphan"⟩, false, 0⟩,
     ⟨⟨.pystr "2024-01-01 10:00:00", .pystr "INFO", .pystr "alpha\ncont"⟩, false, 1⟩,
     ⟨⟨.pystr "T", .pystr "L", .pystr "J"⟩, true, 3⟩] rfl

/-- C9 counterexample: a record whose message carries a trailing space does
not round-trip for an arbitrary record list — the chunk line re-parses with
the trailing space stripped, so the recovered message differs from the
original. -/
theorem chunk_roundtrip_cex :
    chunk_structured_logs [⟨"2024-01-01 10:00:00", "INFO", "m "⟩] 10
      = .ok ["2024-01-01 10:00:00 [INFO] m "] ∧
    structure_logs "2024-01-01 10:00:00 [INFO] m "
      = .ok [⟨.pystr "2024-01-01 10:00:00", .pystr "INFO", .pystr "m"⟩] ∧
    ("m" : String) ≠ "m " := ⟨rfl, rfl, by decide⟩

/-- C9 amended: for every list of good records (exact timestamp shape,
non-empty level of word characters, message lines that are strip-invariant,
separator-free and — beyond the first — matched by neither recognizer) and
every positive chunk size, re-parsing each chunk text with `structure_logs`
recovers exactly the records of its group, all three fields verbatim. -/
theorem chunk_roundtrip (R : List LogRecord) (chunk_size : Int)
    (hpos : 0 < chunk_size) (hgood : ∀ r ∈ R, GoodRecord r) :
    ∃ cs, chunk_structured_logs R chunk_size = .ok cs ∧
      ∀ i, (hi : i < cs.length) →
        structure_logs (cs.get ⟨i, hi⟩)
          = .ok (((R.drop (i * chunk_size.toNat)).take chunk_size.toNat).map toPyRecord) := by
  obtain ⟨cs, hok, hlen, hget, -, -⟩ := chunk_partition_core R chunk_size hpos
  refine ⟨cs, hok, ?_⟩
  intro i hi
  rw [hget i hi]
  have hsz : 0 < chunk_size.toNat := by omega
  have hbound : i < (R.length + chunk_size.toNat - 1) / chunk_size.toNat := by
    rw [← hlen]; exact hi
  have hmul : (i + 1) * chunk_size.toNat ≤ R.length + chunk_size.toNat - 1 :=
    (Nat.le_div_iff_mul_le hsz).mp hbound
  have hmul2 : i * chunk_size.toNat + chunk_size.toNat ≤ R.length + chunk_size.toNat - 1 := by
    have h : (i + 1) * chunk_size.toNat = i * chunk_size.toNat + chunk_size.toNat := by ring
    rw [← h]
    exact hmul
  have hgrp_len : 0 < ((R.drop (i * chunk_size.toNat)).take chunk_size.toNat).length := by
    rw [List.length_take, List.length_drop]
    omega
  have hgrp_ne : (R.drop (i * chunk_size.toNat)).take chunk_size.toNat ≠ [] :=
    List.length_pos.mp hgrp_len
  have hgrp_good : ∀ r ∈ (R.drop (i * chunk_size.toNat)).take chunk_size.toNat, GoodRecord r :=
    fun r hr => hgood r (List.mem_of_mem_drop (List.mem_of_mem_take hr))
  obtain ⟨lines, init, lastR, hlne, hlgood, hfmt, hmap, hfold⟩ :=
    parse_chunk _ hgrp_good hgrp_ne
  have hsplit : pySplitlines (chunkText ((R.drop (i * chunk_size.toNat)).take chunk_size.toNat))
      = lines := by
    rw [hfmt, pySplitlines]
    exact splitlines_intercalate lines _ hlgood (Nat.lt_succ_self _)
  rw [structure_logs, hsplit, hfold ⟨[], none⟩]
  simp only [Bind.bind, Except.bind, pure, Except.pure]
  rw [hmap]
  rfl

/-- C9 witness: the round-trip applied to two good records, one carrying a
two-line message, at chunk size 1. -/
theorem chunk_roundtrip_witness :
    0 < (1 : Int) ∧
    (∃ cs, chunk_structured_logs
        [⟨"2024-01-01 10:00:00", "INFO", "started"⟩,
         ⟨"2024-01-02 11:30:05", "ERROR", "boom\nat line 7"⟩] 1 = .ok cs ∧
      ∀ i, (hi : i < cs.length) →
        structure_logs (cs.get ⟨i, hi⟩)
          = .ok (List.map toPyRecord
              (List.take (1 : Int).toNat
                (List.drop (i * (1 : Int).toNat)
                  ([⟨"2024-01-01 10:00:00", "INFO", "started"⟩,
                    ⟨"2024-01-02 11:30:05", "ERROR", "boom\nat line 7"⟩]
                    : List LogRecord))))) :=
  ⟨by decide, chunk_roundtrip
    [⟨"2024-01-01 10:00:00", "INFO", "started"⟩,
     ⟨"2024-01-02 11:30:05", "ERROR", "boom\nat line 7"⟩] 1 (by decide)
    (by
      intro r hr
      rcases List.mem_cons.mp hr with h | h
      · subst h
        rw [GoodRecord]
        refine ⟨rfl, by decide, by decide, ["started"], by simp, rfl, ?_, ?_⟩
        · intro l hl
          rw [List.mem_singleton] at hl
          subst hl
          rw [goodLine]
          exact ⟨by decide, rfl, by decide⟩
        · intro l hl
          simp at hl
      · rcases List.mem_cons.mp h with h2 | h2
        · subst h2
          rw [GoodRecord]
          refine ⟨rfl, by decide, by decide, ["boom", "at line 7"], by simp, rfl, ?_, ?_⟩
          · intro l hl
            rcases List.mem_cons.mp hl with h3 | h3
            · subst h3
              rw [goodLine]
              exact ⟨by decide, rfl, by decide⟩
            · rw [List.mem_singleton] at h3
              subst h3
              rw [goodLine]
              exact ⟨by decide, rfl, by decide⟩
          · intro l hl
            rw [show (["boom", "at line 7"] : List String).tail = ["at line 7"] from rfl] at hl
            rw [List.mem_singleton] at hl
            subst hl
            rw [contLineOk, goodLine]
            exact ⟨⟨by decide, rfl, by decide⟩, by rw [jsonFallsThrough]; exact trivial, rfl⟩
        · simp at h2)⟩

end LogMentor
